import Mathlib

/-!
Verification of the clipboard extraction / formatting / write-back core.

Shallow embedding of `src/utils/clipboardUtils.ts` (the file exporting
`createFileInfo`, `extractData`, `formatJson`, `isValidJson`, `formatContent`
and `copyToClipboard`) together with the guard of `copyToClipboardHandler`
from the presentation component that calls the writer.

Modelling conventions:
* JavaScript promises are modelled by explicit values; a rejected promise is
  `Except.error ()`.  `Promise.all` is modelled by an event-loop that runs the
  sub-tasks concurrently, completes them in the order given by their delays,
  stores every result into the slot of its originating index, and resolves
  with the slot array (or rejects as soon as a completing task rejected) —
  exactly the observable semantics of `Promise.all`.
* `URL.createObjectURL` allocates an opaque dereferenceable handle; the model
  uses a deterministic handle derived from the file, since no claim depends
  on the freshness of the handle, only on the fields of the descriptor.
* DOM state relevant to the writer (the off-screen textarea buffer and the
  transient `copy` listener) is threaded explicitly as a `HostState`.
-/

namespace Clipboard

/-- A `File`-like platform object (also used for `Blob`s force-cast to `File`
by the source: a plain `Blob` carries no `name`, hence the `Option`). -/
structure FileLike where
  name : Option String
  size : Nat
  ftype : String
  content : String
  deriving DecidableEq, Repr

/-- Model of `URL.createObjectURL`: an opaque handle for the binary content.
Freshness of the handle is irrelevant to every claim, so the model derives a
deterministic handle from the file object. -/
def createObjectURL (f : FileLike) : String :=
  "blob:" ++ f.ftype ++ ":" ++ f.content

/-- `FileInfo` of the source (`{ name, size, type, url }`).  `name` is an
`Option` because the source builds a `FileInfo` from a `Blob` cast to `File`,
whose `name` is `undefined` at runtime. -/
structure FileInfo where
  name : Option String
  size : Nat
  type : String
  url : String
  deriving DecidableEq, Repr

/-- Junk descriptor backing the source's `as FileInfo` cast; provably never
produced, since `createFileInfo` applied to a present file always succeeds. -/
def defaultFileInfo : FileInfo :=
  { name := none, size := 0, type := "", url := "" }

/-- `createFileInfo` (src/unnamed/part_011 lines 31–40): `null` propagates,
otherwise the descriptor is built from the file's fields and a fresh object
URL. -/
def createFileInfo : Option FileLike → Option FileInfo
  | none => none
  | some file =>
      some { name := file.name
             size := file.size
             type := file.ftype
             url := createObjectURL file }

/-- The `string | FileInfo` union of `ClipboardTypeData.data`. -/
inductive StrOrFile where
  | str (s : String)
  | file (f : FileInfo)
  deriving DecidableEq, Repr

/-- `ClipboardTypeData` of the source. -/
structure ClipboardTypeData where
  type : String
  data : StrOrFile
  deriving DecidableEq, Repr

/-- `ClipboardItemData` of the source (one `DataTransferItem`). -/
structure ClipboardItemData where
  kind : String
  type : String
  as_file : Option FileInfo
  deriving DecidableEq, Repr

/-- `ExtractedData` of the source.  `type` holds the literal discriminator
string; absent (`undefined`) and `null` optional fields are both `none`. -/
structure ExtractedData where
  type : String
  types : Option (List ClipboardTypeData)
  items : Option (List ClipboardItemData)
  files : Option (List FileInfo)
  deriving DecidableEq, Repr

/-- One `DataTransferItem`: its `kind`, its `type`, and what `getAsFile()`
returns (`null` for string items). -/
structure DataTransferItemM where
  kind : String
  itype : String
  asFile : Option FileLike
  deriving DecidableEq

/-- A `DataTransfer` input: the advertised type list, the synchronous
`getData` accessor, and the `items` / `files` lists (`none` models an absent
or `null` list — note an *empty* platform list is truthy in JavaScript, so it
is modelled as `some []`, not `none`). -/
structure DataTransferM where
  typesL : List String
  getData : String → String
  items : Option (List DataTransferItemM)
  files : Option (List FileLike)

/-- A `ClipboardItem` input: the advertised type list, the asynchronous
`getType` fetch (which may reject), and the completion delay of each fetch —
the environment's scheduling choice, modelling that the per-type fetches run
concurrently and may complete in any order. -/
structure ClipboardItemM where
  typesL : List String
  getType : String → Except Unit FileLike
  delay : String → Nat

/-- The possible arguments of `extractData`: a falsy value, a `DataTransfer`,
a `ClipboardItem`, or any other (truthy but unrecognized) value. -/
inductive RawInput where
  | nullish
  | dataTransfer (d : DataTransferM)
  | clipboardItem (c : ClipboardItemM)
  | unrecognized

/-! ## The event-loop model of `Promise.all` -/
/-- Stable insertion into a list sorted by completion time. -/
def insertByTime {α : Type} (e : Nat × α) : List (Nat × α) → List (Nat × α)
  | [] => [e]
  | f :: fs => if e.1 < f.1 then e :: f :: fs else f :: insertByTime e fs

/-- Sort events by completion time (stable, so equal delays complete in
issue order).  Structural recursion, so it evaluates on concrete inputs. -/
def sortByTime {α : Type} : List (Nat × α) → List (Nat × α)
  | [] => []
  | e :: es => insertByTime e (sortByTime es)

/-- The completion schedule of a task list: each task is tagged with its
originating index, and the tagged events are ordered by completion time. -/
def scheduleOf {α : Type} (tasks : List (Nat × α)) : List (Nat × Nat × α) :=
  sortByTime ((tasks.enum).map fun p => (p.2.1, p.1, p.2.2))

/-- Process completion events in order: a fulfilled task stores its value in
the slot of its index; a rejected task rejects the aggregate. -/
def fillSlots {α : Type} (slots : List (Option α)) :
    List (Nat × Nat × Except Unit α) → Except Unit (List (Option α))
  | [] => .ok slots
  | (_, _, .error _) :: _ => .error ()
  | (_, i, .ok v) :: es => fillSlots (slots.set i (some v)) es

/-- Collect a fully-filled slot array. -/
def collectSlots {α : Type} : List (Option α) → Option (List α)
  | [] => some []
  | none :: _ => none
  | some v :: rest => (collectSlots rest).map (v :: ·)

/-- `Promise.all` over tasks with completion delays: run the schedule, then
resolve with the slot array (or reject). -/
def promiseAll {α : Type} (tasks : List (Nat × Except Unit α)) :
    Except Unit (List α) :=
  match fillSlots (List.replicate tasks.length none) (scheduleOf tasks) with
  | .error _ => .error ()
  | .ok slots =>
      match collectSlots slots with
      | some vs => .ok vs
      | none => .error ()

/-- The effect of one completion event on the slot array. -/
def applyEvent {α : Type} (slots : List (Option α)) (e : Nat × Nat × Except Unit α) :
    List (Option α) :=
  match e with
  | (_, i, .ok v) => slots.set i (some v)
  | (_, _, .error _) => slots

/-! ## `extractData` (src/unnamed/part_011 lines 45–92) -/
/-- The per-type task of the `ClipboardItem` branch: await `getType`, then
decode the blob as text when its declared type starts with `text/`, else wrap
it as a `FileInfo` (the source's `blob as unknown as File` cast). -/
def clipTask (c : ClipboardItemM) (t : String) : Nat × Except Unit ClipboardTypeData :=
  (c.delay t,
   (c.getType t).map fun blob =>
     { type := t
       data :=
         if blob.ftype.startsWith "text/" then
           StrOrFile.str blob.content
         else
           StrOrFile.file ((createFileInfo (some blob)).getD defaultFileInfo) })

/-- `extractData`: falsy and unrecognized inputs yield `undefined`; a
`DataTransfer` is read synchronously; a `ClipboardItem` fetches every
advertised type through `Promise.all` (and therefore rejects as a whole when
any sub-fetch rejects — the source has no handler around the `await`). -/
def extractData : RawInput → Except Unit (Option ExtractedData)
  | .nullish => .ok none
  | .dataTransfer d =>
      .ok (some
        { type := "DataTransfer"
          types := some (d.typesL.map fun t => { type := t, data := .str (d.getData t) })
          items := d.items.map (·.map fun it =>
            { kind := it.kind, type := it.itype, as_file := createFileInfo it.asFile })
          files := d.files.map (·.map fun f =>
            (createFileInfo (some f)).getD defaultFileInfo) })
  | .clipboardItem c =>
      (promiseAll (c.typesL.map (clipTask c))).map fun tys =>
        some { type := "ClipboardItem", types := some tys, items := none, files := none }
  | .unrecognized => .ok none

/-- Concrete transfer from the spec's example: types `text/plain` and
`text/html` with data `"hello"` and `"<b>hello</b>"`. -/
def exampleTransfer : DataTransferM :=
  { typesL := ["text/plain", "text/html"]
    getData := fun t =>
      if t = "text/plain" then "hello"
      else if t = "text/html" then "<b>hello</b>" else ""
    items := none
    files := none }

/-- Spec's delayed-fetch scenario: two advertised text types, the first
fetch artificially delayed so the second completes first. -/
def delayedItem : ClipboardItemM :=
  { typesL := ["text/plain", "text/html"]
    getType := fun t =>
      if t = "text/plain" then .ok ⟨none, 5, "text/plain", "hello"⟩
      else if t = "text/html" then .ok ⟨none, 12, "text/html", "<b>hello</b>"⟩
      else .error ()
    delay := fun t => if t = "text/plain" then 7 else 0 }

/-- Non-emptiness of a field of an entry, as the spec's invariant reads it. -/
def hasNonemptyField (e : ExtractedData) : Bool :=
  (match e.types with | some (_ :: _) => true | _ => false) ||
  (match e.items with | some (_ :: _) => true | _ => false) ||
  (match e.files with | some (_ :: _) => true | _ => false)

/-- A `DataTransfer` advertising no types, whose (truthy, empty) item and
file lists are both present and empty. -/
def emptyTransfer : DataTransferM :=
  { typesL := [], getData := fun _ => "", items := some [], files := some [] }

/-- A `ClipboardItem` advertising two types where exactly the second
sub-fetch rejects. -/
def partialFailItem : ClipboardItemM :=
  { typesL := ["text/plain", "text/html"]
    getType := fun t =>
      if t = "text/plain" then .ok ⟨none, 5, "text/plain", "hello"⟩
      else .error ()
    delay := fun _ => 0 }

/-! ## The clipboard writer (`copyToClipboard`, src/unnamed/part_011 lines 133–200)

The writer's host environment: what `document.execCommand('copy')` does,
which pieces of the asynchronous clipboard API exist, and whether their
promises resolve.  The mutable host state threads the DOM bookkeeping the
writer touches (appended off-screen textareas, registered `copy` listeners)
and the system clipboard's two representations. -/
/-- Behaviour of the synchronous `document.execCommand('copy')` call. -/
inductive ExecBehavior where
  | retTrue
  | retFalse
  | throws
  deriving DecidableEq, Repr

/-- Host capabilities and outcomes for one `copyToClipboard` call. -/
structure ClipEnv where
  exec : ExecBehavior
  clipboardPresent : Bool
  writePresent : Bool
  writeTextPresent : Bool
  writeResolves : Bool
  writeTextResolves : Bool
  deriving DecidableEq, Repr

/-- Host state: DOM bookkeeping plus the system clipboard's contents. -/
structure HostState where
  buffers : List String
  copyHandlers : Nat
  clipPlain : Option String
  clipJson : Option String
  deriving DecidableEq, Repr

/-- A host with no appended buffer, no listener and an empty clipboard. -/
def emptyHost : HostState :=
  { buffers := [], copyHandlers := 0, clipPlain := none, clipJson := none }

/-- JavaScript string coercion of the writer's argument: a runtime non-string
(the `FileInfo` payload) assigned to `textArea.value` becomes
`"[object Object]"` — the writer performs no type check of its own. -/
def coerceToString : StrOrFile → String
  | .str s => s
  | .file _ => "[object Object]"

/-- A successful synchronous copy replaces the clipboard: with the transient
handler both representations are set explicitly, otherwise only the plain
text of the selection is copied. -/
def execPhase (text : String) (withHandler : Bool) (s : HostState) : HostState :=
  if withHandler then { s with clipPlain := some text, clipJson := some text }
  else { s with clipPlain := some text, clipJson := none }

/-- The modern-API section after the legacy attempt: `write` with both
representations when `isJson` and `write` exists, else `writeText` when it
exists; a rejection is caught and only logged, never surfaced. -/
def modernPhase (text : String) (isJson : Bool) (env : ClipEnv) (s : HostState) : HostState :=
  if env.clipboardPresent then
    if isJson && env.writePresent then
      if env.writeResolves then { s with clipPlain := some text, clipJson := some text }
      else s
    else if env.writeTextPresent then
      if env.writeTextResolves then { s with clipPlain := some text, clipJson := none }
      else s
    else s
  else s

/-- The `catch` block: one bare `navigator.clipboard.writeText` attempt;
a missing API throws inside the inner `try` and yields `false`. -/
def catchPhase (text : String) (env : ClipEnv) (s : HostState) : Bool × HostState :=
  if env.clipboardPresent && env.writeTextPresent then
    if env.writeTextResolves then
      (true, { s with clipPlain := some text, clipJson := none })
    else (false, s)
  else (false, s)

/-- `copyToClipboard(content, isJson)`: append the off-screen buffer, run the
legacy copy command (with the transient handler when `isJson`), remove the
listener and the buffer, run the modern-API section, and return `true`; when
the copy command throws, control jumps to the `catch` block *before* any
cleanup, so the buffer (and the handler, when `isJson`) stay behind. -/
def copyToClipboard (content : StrOrFile) (isJson : Bool) (env : ClipEnv)
    (s : HostState) : Bool × HostState :=
  let text := coerceToString content
  let s1 : HostState := { s with buffers := s.buffers ++ [text] }
  if isJson then
    let s2 : HostState := { s1 with copyHandlers := s1.copyHandlers + 1 }
    match env.exec with
    | .throws => catchPhase text env s2
    | .retTrue =>
        let s3 := execPhase text true s2
        let s4 : HostState := { s3 with copyHandlers := s3.copyHandlers - 1 }
        let s5 : HostState := { s4 with buffers := s4.buffers.dropLast }
        (true, modernPhase text true env s5)
    | .retFalse =>
        let s4 : HostState := { s2 with copyHandlers := s2.copyHandlers - 1 }
        let s5 : HostState := { s4 with buffers := s4.buffers.dropLast }
        (true, modernPhase text true env s5)
  else
    match env.exec with
    | .throws => catchPhase text env s1
    | .retTrue =>
        let s3 := execPhase text false s1
        let s4 : HostState := { s3 with buffers := s3.buffers.dropLast }
        (true, modernPhase text false env s4)
    | .retFalse =>
        let s4 : HostState := { s1 with buffers := s1.buffers.dropLast }
        (true, modernPhase text false env s4)

/-- "The legacy strategy reported success": `execCommand` returned `true`. -/
def legacySucceeded (env : ClipEnv) : Bool :=
  env.exec == .retTrue

/-- "The modern strategy reported success": the attempted asynchronous write
(if any) resolved. -/
def modernSucceeded (isJson : Bool) (env : ClipEnv) : Bool :=
  env.clipboardPresent &&
    (if isJson && env.writePresent then env.writeResolves
     else env.writeTextPresent && env.writeTextResolves)

/-- "The final fallback strategy reported success": the bare `writeText`
attempt of the `catch` block resolved. -/
def catchAttemptSucceeds (env : ClipEnv) : Bool :=
  env.clipboardPresent && env.writeTextPresent && env.writeTextResolves

/-- Environment where every capability exists and every strategy succeeds. -/
def goodEnv : ClipEnv :=
  { exec := .retTrue, clipboardPresent := true, writePresent := true
    writeTextPresent := true, writeResolves := true, writeTextResolves := true }

/-- Environment where every strategy fails but nothing throws. -/
def allFailEnv : ClipEnv :=
  { exec := .retFalse, clipboardPresent := false, writePresent := false
    writeTextPresent := false, writeResolves := false, writeTextResolves := false }

/-- Environment where the copy command throws and no modern API exists. -/
def throwEnv : ClipEnv :=
  { exec := .throws, clipboardPresent := false, writePresent := false
    writeTextPresent := false, writeResolves := false, writeTextResolves := false }

/-- Environment with only the legacy path: the modern asynchronous clipboard
API is entirely absent. -/
def legacyOnlyEnv : ClipEnv :=
  { exec := .retTrue, clipboardPresent := false, writePresent := false
    writeTextPresent := false, writeResolves := false, writeTextResolves := false }

/-- An arbitrary concrete file descriptor. -/
def sampleFileInfo : FileInfo :=
  { name := some "shot.png", size := 2048, type := "image/png", url := "blob:shot" }

/-! ## The content classifier / formatter
(`isValidJson`, `formatJson`, `formatContent`, src/unnamed/part_011 lines 97–127)

The source delegates to the host's `JSON.parse` / `JSON.stringify(·, null, 2)`.
These are modelled by an executable parser and pretty-printer over an exact
JSON value type.  Numbers are carried as exact decimals `m × 10ᵉ` (normalised
so that `10 ∤ m`); this matches the host for every number within double
precision and diverges only beyond it (17+ significant digits, where IEEE-754
rounding is inherently outside a shallow embedding).  Strings are sequences
of Unicode scalars, as in Lean; JavaScript's lone UTF-16 surrogates have no
scalar counterpart and are not modelled.  `JSON.parse` keeps the last value
of a duplicated object key at the position of its first occurrence, which
`insertField` reproduces. -/
/-! JSON values, with the element and member lists as mutual inductives so
that every function on them is plain structural recursion (and therefore
computes inside the kernel). -/
mutual
inductive Json where
  | null
  | bool (b : Bool)
  | num (m : Int) (e : Int)
  | str (s : String)
  | arr (elems : JsonList)
  | obj (fields : JsonFields)
inductive JsonList where
  | nil
  | cons (head : Json) (tail : JsonList)
inductive JsonFields where
  | nil
  | cons (key : String) (value : Json) (tail : JsonFields)
end

/-! ### Characters and digits -/
/-- The four whitespace characters `JSON.parse` skips. -/
def isWsChar (c : Char) : Bool :=
  c = ' ' || c = '\t' || c = '\n' || c = '\r'

def isDigitChar (c : Char) : Bool :=
  48 ≤ c.toNat && c.toNat ≤ 57

def digitChar (d : Nat) : Char := Char.ofNat (48 + d)

def digitVal (c : Char) : Nat := c.toNat - 48

/-- Lowercase hexadecimal digit, as `JSON.stringify` emits in `\u00xx`. -/
def hexChar (d : Nat) : Char :=
  if d < 10 then digitChar d else Char.ofNat (87 + d)

def isHexChar (c : Char) : Bool :=
  (48 ≤ c.toNat && c.toNat ≤ 57) ||
  (97 ≤ c.toNat && c.toNat ≤ 102) ||
  (65 ≤ c.toNat && c.toNat ≤ 70)

def hexVal (c : Char) : Nat :=
  if 48 ≤ c.toNat && c.toNat ≤ 57 then c.toNat - 48
  else if 97 ≤ c.toNat && c.toNat ≤ 102 then c.toNat - 87
  else c.toNat - 55

/-- Little-endian decimal digits, by fuelled structural recursion (the fuel
`n` dominates the digit count, so `natDigitsLE n` is exact). -/
def natDigitsAux : Nat → Nat → List Nat
  | 0, _ => []
  | _ + 1, 0 => []
  | fuel + 1, n + 1 => (n + 1) % 10 :: natDigitsAux fuel ((n + 1) / 10)

def natDigitsLE (n : Nat) : List Nat := natDigitsAux n n

/-- Big-endian decimal digits of `n` (empty for `n = 0`). -/
def natDigitsBE (n : Nat) : List Nat := (natDigitsLE n).reverse

/-- Value of a big-endian digit list. -/
def valOfDigits (ds : List Nat) : Nat :=
  ds.foldl (fun a d => 10 * a + d) 0

/-! ### Numbers: normalisation, printing -/
/-- Strip factors of ten from the mantissa into the exponent (fuelled; the
fuel `m` itself dominates the number of strips). -/
def normLoop : Nat → Nat → Int → Nat × Int
  | 0, m, e => (m, e)
  | fuel + 1, m, e =>
      if m ≠ 0 && m % 10 == 0 then normLoop fuel (m / 10) (e + 1) else (m, e)

/-- Normalised exact-decimal form of `m × 10ᵉ`: zero is `(0, 0)`, otherwise
the mantissa is not divisible by ten. -/
def normNum (m : Int) (e : Int) : Int × Int :=
  if m = 0 then (0, 0)
  else
    let p := normLoop m.natAbs m.natAbs e
    (if m < 0 then -(p.1 : Int) else (p.1 : Int), p.2)

/-- Digit body of a printed nonzero number whose significant digits are
`ds`: plain integer notation up to 21 digits, fixed-point notation down to
`10⁻⁷`, exponential notation beyond — the cases of the host's
number-to-string conversion. -/
def numBodyChars (ds : List Nat) (e : Int) : List Char :=
  let k : Int := (ds.length : Int)
  let n : Int := k + e
  if 0 ≤ e && n ≤ 21 then
    ds.map digitChar ++ List.replicate e.toNat '0'
  else if 0 < n && n ≤ 21 then
    (ds.take n.toNat).map digitChar ++ '.' :: (ds.drop n.toNat).map digitChar
  else if -6 < n && n ≤ 0 then
    '0' :: '.' :: (List.replicate (-n).toNat '0' ++ ds.map digitChar)
  else
    (match ds with
     | [] => []
     | d :: rest =>
         digitChar d ::
           (if rest.isEmpty then [] else '.' :: rest.map digitChar)) ++
    'e' :: ((if 0 ≤ n - 1 then ['+'] else ['-']) ++
      (natDigitsBE (n - 1).natAbs).map digitChar)

/-- Decimal rendering of the exact number `m × 10ᵉ`. -/
def numToChars (m : Int) (e : Int) : List Char :=
  if m = 0 then ['0']
  else (if m < 0 then ['-'] else []) ++ numBodyChars (natDigitsBE m.natAbs) e

/-! ### Strings: escaping and printing -/
/-- Per-character escaping of `JSON.stringify`: the two structural
characters, the five short escapes, `\u00xx` for remaining control
characters, everything else literal. -/
def escapeChar (c : Char) : List Char :=
  if c = '\"' then ['\\', '\"']
  else if c = '\\' then ['\\', '\\']
  else if c = '\x08' then ['\\', 'b']
  else if c = '\x0c' then ['\\', 'f']
  else if c = '\n' then ['\\', 'n']
  else if c = '\r' then ['\\', 'r']
  else if c = '\t' then ['\\', 't']
  else if c.toNat < 32 then
    ['\\', 'u', '0', '0', hexChar (c.toNat / 16), hexChar (c.toNat % 16)]
  else [c]

def escapeChars : List Char → List Char
  | [] => []
  | c :: cs => escapeChar c ++ escapeChars cs

/-- A quoted JSON string literal. -/
def quoteString (s : String) : List Char :=
  '\"' :: escapeChars s.data ++ ['\"']

/-! ### The pretty-printer (`JSON.stringify(v, null, 2)`) -/
/-- Indentation for nesting depth `d` with the two-space gap. -/
def indentChars (d : Nat) : List Char := List.replicate (2 * d) ' '

mutual
/-- Characters of `JSON.stringify(v, null, 2)` at nesting depth `d`. -/
def ppJson (d : Nat) : Json → List Char
  | .null => ['n', 'u', 'l', 'l']
  | .num m e => numToChars m e
  | .bool true => ['t', 'r', 'u', 'e']
  | .str s => quoteString s
  | .bool false => ['f', 'a', 'l', 's', 'e']
  | .arr .nil => ['[', ']']
  | .arr (.cons x xs) =>
      '[' :: '\n' ::
        (indentChars (d + 1) ++ ppJson (d + 1) x ++ ppArrayRest (d + 1) xs ++
          '\n' :: (indentChars d ++ [']']))
  | .obj .nil => ['\x7b', '\x7d']
  | .obj (.cons k v fs) =>
      '\x7b' :: '\n' ::
        (indentChars (d + 1) ++ quoteString k ++ ':' :: ' ' :: ppJson (d + 1) v ++
          ppObjRestChars (d + 1) fs ++ '\n' :: (indentChars d ++ ['\x7d']))
/-- Remaining array elements: `",\n" ++ indent ++ element` each. -/
def ppArrayRest (d : Nat) : JsonList → List Char
  | .nil => []
  | .cons x xs =>
      ',' :: '\n' :: (indentChars d ++ ppJson d x ++ ppArrayRest d xs)
/-- Remaining object members: `",\n" ++ indent ++ key ++ ": " ++ value`. -/
def ppObjRestChars (d : Nat) : JsonFields → List Char
  | .nil => []
  | .cons k v fs =>
      ',' :: '\n' ::
        (indentChars d ++ quoteString k ++ ':' :: ' ' :: ppJson d v ++
          ppObjRestChars d fs)
end

/-! ### The parser (`JSON.parse`) -/
def skipWs : List Char → List Char
  | [] => []
  | c :: cs => if isWsChar c then skipWs cs else c :: cs

/-- Longest digit-character prefix, as digit values. -/
def takeDigits : List Char → List Nat × List Char
  | [] => ([], [])
  | c :: cs =>
      if isDigitChar c then
        let p := takeDigits cs
        (digitVal c :: p.1, p.2)
      else ([], c :: cs)

/-- Four hexadecimal digits, as a code unit. -/
def hex4 (h1 h2 h3 h4 : Char) : Option Nat :=
  if isHexChar h1 && isHexChar h2 && isHexChar h3 && isHexChar h4 then
    some (4096 * hexVal h1 + 256 * hexVal h2 + 16 * hexVal h3 + hexVal h4)
  else none

/-- Decoding of the short escapes. -/
def escDecode (e : Char) : Option Char :=
  if e = '\"' then some '\"'
  else if e = '\\' then some '\\'
  else if e = '/' then some '/'
  else if e = 'b' then some '\x08'
  else if e = 'f' then some '\x0c'
  else if e = 'n' then some '\n'
  else if e = 'r' then some '\r'
  else if e = 't' then some '\t'
  else none

mutual
/-- String-literal body (after the opening quote): literal characters,
short escapes, and `\uXXXX` (with surrogate pairs combined).  All recursive
calls are on structural sub-lists. -/
def parseStringBody : List Char → Option (List Char × List Char)
  | [] => none
  | c :: cs =>
      if c = '\"' then some ([], cs)
      else if c = '\\' then parseEscape cs
      else if c.toNat < 32 then none
      else
        match parseStringBody cs with
        | some p => some (c :: p.1, p.2)
        | none => none
/-- The characters after a backslash. -/
def parseEscape : List Char → Option (List Char × List Char)
  | [] => none
  | e :: cs2 =>
      if e = 'u' then parseHexTail cs2
      else
        match escDecode e with
        | some ch =>
            (match parseStringBody cs2 with
             | some p => some (ch :: p.1, p.2)
             | none => none)
        | none => none
/-- The four hex digits of a `\u` escape and what follows. -/
def parseHexTail : List Char → Option (List Char × List Char)
  | h1 :: h2 :: h3 :: h4 :: cs2 =>
      (match hex4 h1 h2 h3 h4 with
       | none => none
       | some u =>
           if 55296 ≤ u && u ≤ 56319 then parseLowSurrogate u cs2
           else if 56320 ≤ u && u ≤ 57343 then none
           else
             match parseStringBody cs2 with
             | some p => some (Char.ofNat u :: p.1, p.2)
             | none => none)
  | _ => none
/-- The mandatory low half after a high surrogate. -/
def parseLowSurrogate (u : Nat) : List Char → Option (List Char × List Char)
  | '\\' :: 'u' :: g1 :: g2 :: g3 :: g4 :: cs3 =>
      (match hex4 g1 g2 g3 g4 with
       | none => none
       | some w =>
           if 56320 ≤ w && w ≤ 57343 then
             match parseStringBody cs3 with
             | some p =>
                 some (Char.ofNat
                   (65536 + 1024 * (u - 55296) + (w - 56320)) :: p.1, p.2)
             | none => none
           else none)
  | _ => none
end

/-- Assemble a parsed number from its parts: sign, integer digits, fraction
digits, exponent value; the mantissa/exponent pair is normalised. -/
def finishNumber (neg : Bool) (intDs fracDs : List Nat) (expVal : Int)
    (rest : List Char) : Option ((Int × Int) × List Char) :=
  let mant : Nat := valOfDigits (intDs ++ fracDs)
  let m0 : Int := if neg then -(mant : Int) else (mant : Int)
  some (normNum m0 (expVal - (fracDs.length : Int)), rest)

/-- Exponent digits (at least one), with the exponent's sign decided. -/
def parseExpDigits (neg : Bool) (intDs fracDs : List Nat) (esign : Bool)
    (s : List Char) : Option ((Int × Int) × List Char) :=
  let q := takeDigits s
  if q.1 = [] then none
  else
    finishNumber neg intDs fracDs
      (if esign then -(valOfDigits q.1 : Int) else (valOfDigits q.1 : Int)) q.2

/-- Optional sign of the exponent. -/
def parseExpSign (neg : Bool) (intDs fracDs : List Nat) :
    List Char → Option ((Int × Int) × List Char)
  | [] => none
  | c :: cs =>
      if c = '+' then parseExpDigits neg intDs fracDs false cs
      else if c = '-' then parseExpDigits neg intDs fracDs true cs
      else parseExpDigits neg intDs fracDs false (c :: cs)

/-- Optional exponent part. -/
def parseExpPart (neg : Bool) (intDs fracDs : List Nat) :
    List Char → Option ((Int × Int) × List Char)
  | [] => finishNumber neg intDs fracDs 0 []
  | c :: cs =>
      if c = 'e' || c = 'E' then parseExpSign neg intDs fracDs cs
      else finishNumber neg intDs fracDs 0 (c :: cs)

/-- Optional fraction part (a dot must be followed by at least one digit). -/
def parseFracPart (neg : Bool) (intDs : List Nat) :
    List Char → Option ((Int × Int) × List Char)
  | [] => parseExpPart neg intDs [] []
  | c :: cs =>
      if c = '.' then
        let q := takeDigits cs
        if q.1 = [] then none else parseExpPart neg intDs q.1 q.2
      else parseExpPart neg intDs [] (c :: cs)

/-- Integer part after the sign: `0` alone, or a nonzero-led digit run. -/
def parseIntPart (neg : Bool) : List Char → Option ((Int × Int) × List Char)
  | [] => none
  | c :: cs =>
      if c = '0' then parseFracPart neg [0] cs
      else if isDigitChar c then
        let q := takeDigits cs
        parseFracPart neg (digitVal c :: q.1) q.2
      else none

/-- A JSON number literal: optional minus, `0` or a nonzero-led digit run,
optional fraction, optional exponent. -/
def parseNumberCore : List Char → Option ((Int × Int) × List Char)
  | [] => none
  | c :: cs =>
      if c = '-' then parseIntPart true cs
      else parseIntPart false (c :: cs)

/-- Duplicate-key insertion of `JSON.parse`: the last value wins, at the
position of the key's first occurrence. -/
def insertField : JsonFields → String → Json → JsonFields
  | .nil, k, v => .cons k v .nil
  | .cons k0 v0 tl, k, v =>
      if k0 = k then .cons k0 v tl else .cons k0 v0 (insertField tl k v)

/-- Match an expected literal word, returning the remainder. -/
def expectChars : List Char → List Char → Option (List Char)
  | [], s => some s
  | _ :: _, [] => none
  | c :: cs, x :: xs => if x = c then expectChars cs xs else none

mutual
/-- Fuelled JSON value parser; every recursive call decrements the fuel, so
the definition is structural and computes in the kernel.  At the top level
the input length plus one always suffices as fuel. -/
def parseValue : Nat → List Char → Option (Json × List Char)
  | 0, _ => none
  | fuel + 1, s =>
      match skipWs s with
      | [] => none
      | c :: cs =>
          if c = 'n' then
            match expectChars ['u', 'l', 'l'] cs with
            | some rest => some (.null, rest)
            | none => none
          else if c = 't' then
            match expectChars ['r', 'u', 'e'] cs with
            | some rest => some (.bool true, rest)
            | none => none
          else if c = 'f' then
            match expectChars ['a', 'l', 's', 'e'] cs with
            | some rest => some (.bool false, rest)
            | none => none
          else if c = '\"' then
            match parseStringBody cs with
            | some p => some (.str (String.mk p.1), p.2)
            | none => none
          else if c = '[' then
            match skipWs cs with
            | [] => none
            | c2 :: cs2 =>
                if c2 = ']' then some (.arr .nil, cs2)
                else
                  match parseValue fuel (c2 :: cs2) with
                  | some p =>
                      (match parseArrayRest fuel p.2 with
                       | some q => some (.arr (.cons p.1 q.1), q.2)
                       | none => none)
                  | none => none
          else if c = '\x7b' then
            match skipWs cs with
            | [] => none
            | c2 :: cs2 =>
                if c2 = '\x7d' then some (.obj .nil, cs2)
                else
                  match parseMember fuel (c2 :: cs2) with
                  | some p =>
                      (match parseObjRest fuel (insertField .nil p.1.1 p.1.2) p.2 with
                       | some q => some (.obj q.1, q.2)
                       | none => none)
                  | none => none
          else
            match parseNumberCore (c :: cs) with
            | some p => some (.num p.1.1 p.1.2, p.2)
            | none => none
/-- After one array element: a comma and a further element, or the closing
bracket. -/
def parseArrayRest : Nat → List Char → Option (JsonList × List Char)
  | 0, _ => none
  | fuel + 1, s =>
      match skipWs s with
      | [] => none
      | c :: cs =>
          if c = ',' then
            match parseValue fuel cs with
            | some p =>
                (match parseArrayRest fuel p.2 with
                 | some q => some (.cons p.1 q.1, q.2)
                 | none => none)
            | none => none
          else if c = ']' then some (.nil, cs)
          else none
/-- One object member: quoted key, colon, value. -/
def parseMember : Nat → List Char → Option ((String × Json) × List Char)
  | 0, _ => none
  | fuel + 1, s =>
      match skipWs s with
      | [] => none
      | c :: cs =>
          if c = '\"' then
            match parseStringBody cs with
            | some p =>
                (match skipWs p.2 with
                 | [] => none
                 | c2 :: cs2 =>
                     if c2 = ':' then
                       match parseValue fuel cs2 with
                       | some q => some ((String.mk p.1, q.1), q.2)
                       | none => none
                     else none)
            | none => none
          else none
/-- After one object member: a comma and a further member, or the closing
brace; members accumulate through `insertField`. -/
def parseObjRest : Nat → JsonFields → List Char → Option (JsonFields × List Char)
  | 0, _, _ => none
  | fuel + 1, acc, s =>
      match skipWs s with
      | [] => none
      | c :: cs =>
          if c = ',' then
            match parseMember fuel cs with
            | some p => parseObjRest fuel (insertField acc p.1.1 p.1.2) p.2
            | none => none
          else if c = '\x7d' then some (acc, cs)
          else none
end

/-- `JSON.parse` on a character list: one value, then only trailing
whitespace. -/
def parseJsonChars (cs : List Char) : Option Json :=
  match parseValue (cs.length + 1) cs with
  | some p =>
      (match skipWs p.2 with
       | [] => some p.1
       | _ => none)
  | none => none

/-! ### The source's exported functions -/
/-- `isValidJson` (src/unnamed/part_011 lines 109–116): `JSON.parse`
succeeds. -/
def isValidJson (s : String) : Bool :=
  (parseJsonChars s.data).isSome

/-- `formatJson` (src/unnamed/part_011 lines 97–104): re-serialise with
two-space indentation, or return the input unchanged when parsing fails. -/
def formatJson (jsonString : String) : String :=
  match parseJsonChars jsonString.data with
  | some v => String.mk (ppJson 0 v)
  | none => jsonString

/-- `formatContent` (src/unnamed/part_011 lines 121–127). -/
def formatContent (content : String) (type : String) : String :=
  if type = "text/plain" && isValidJson content then formatJson content
  else content

/-- Character-list matching from the front, for `String.prototype.includes`. -/
def startsWithChars : List Char → List Char → Bool
  | a :: as, b :: bs => b = a && startsWithChars as bs
  | [], _ => true
  | _, _ => false

/-- `type.includes('json')` of the handler. -/
def containsJson : List Char → Bool
  | [] => false
  | c :: cs => startsWithChars ['j', 's', 'o', 'n'] (c :: cs) || containsJson cs

/-- `copyToClipboardHandler` (src/unnamed/part_010 lines 69–105): a
non-string payload is refused up front — the handler returns early without
invoking the writer (`none`); a string payload is forwarded to
`copyToClipboard` with `isJson` set when the type mentions `json` or the
payload is plain text that parses as JSON. -/
def copyToClipboardHandler (content : StrOrFile) (type : String)
    (env : ClipEnv) (s : HostState) : Option (Bool × HostState) :=
  match content with
  | .file _ => none
  | .str text =>
      let isJson := containsJson type.data ||
        (type = "text/plain" && isValidJson text)
      some (copyToClipboard (.str text) isJson env s)

/-! ### Well-formedness and size of parsed values -/
/-- Normalised exact decimal: zero mantissa forces zero exponent, a nonzero
mantissa is not divisible by ten. -/
def numWFb (m e : Int) : Bool :=
  if m = 0 then e == 0 else m % 10 != 0

/-- Key membership in a member list. -/
def keyMemB (k : String) : JsonFields → Bool
  | .nil => false
  | .cons k0 _ tl => k0 == k || keyMemB k tl

/-- Pairwise-distinct keys. -/
def keysNodupB : JsonFields → Bool
  | .nil => true
  | .cons k _ tl => !keyMemB k tl && keysNodupB tl

mutual
/-- Invariant of every value `JSON.parse` produces: normalised numbers and
duplicate-free object keys. -/
def jwf : Json → Bool
  | .null => true
  | .bool _ => true
  | .num m e => numWFb m e
  | .str _ => true
  | .arr xs => jwfL xs
  | .obj fs => jwfF fs && keysNodupB fs
def jwfL : JsonList → Bool
  | .nil => true
  | .cons x xs => jwf x && jwfL xs
def jwfF : JsonFields → Bool
  | .nil => true
  | .cons _ v fs => jwf v && jwfF fs
end

mutual
/-- Fuel bound for re-parsing a printed value. -/
def jsize : Json → Nat
  | .null => 1
  | .bool _ => 1
  | .num _ _ => 1
  | .str _ => 1
  | .arr xs => 2 + jsizeL xs
  | .obj fs => 2 + jsizeF fs
def jsizeL : JsonList → Nat
  | .nil => 0
  | .cons x xs => 2 + jsize x + jsizeL xs
def jsizeF : JsonFields → Nat
  | .nil => 0
  | .cons _ v fs => 2 + jsize v + jsizeF fs
end

/-- Does the input start with a decimal digit? -/
def digitStart : List Char → Bool
  | [] => false
  | c :: _ => isDigitChar c

/-- Characters that may legally follow a printed number. -/
def numStopB : List Char → Bool
  | [] => true
  | c :: _ =>
      !(isDigitChar c) && !(c = '.') && !(c = 'e') && !(c = 'E')

/-! ### Value-level round-trip: supporting lemmas -/
/-- Concatenation of member lists. -/
def appendF : JsonFields → JsonFields → JsonFields
  | .nil, gs => gs
  | .cons k v fs, gs => .cons k v (appendF fs gs)

/-- No key of the first list occurs in the second. -/
def keysDisjointB : JsonFields → JsonFields → Bool
  | .nil, _ => true
  | .cons k _ tl, acc => !keyMemB k acc && keysDisjointB tl acc

/-! ### Order-independence of the `Promise.all` model -/
theorem insertByTime_perm {α : Type} (e : Nat × α) (l : List (Nat × α)) :
    (insertByTime e l).Perm (e :: l) := by
  induction l with
  | nil => exact List.Perm.refl _
  | cons f fs ih =>
      by_cases h : e.1 < f.1
      · simp [insertByTime, h]
      · simp only [insertByTime, if_neg h]
        exact (ih.cons f).trans (List.Perm.swap e f fs)

theorem sortByTime_perm {α : Type} (l : List (Nat × α)) :
    (sortByTime l).Perm l := by
  induction l with
  | nil => exact List.Perm.refl _
  | cons e es ih =>
      exact (insertByTime_perm e (sortByTime es)).trans (ih.cons e)

theorem scheduleOf_perm {α : Type} (tasks : List (Nat × α)) :
    (scheduleOf tasks).Perm ((tasks.enum).map fun p => (p.2.1, p.1, p.2.2)) :=
  sortByTime_perm _

/-- Processing any schedule that contains a rejection event rejects. -/
theorem fillSlots_error {α : Type} (E : List (Nat × Nat × Except Unit α))
    (slots : List (Option α)) (e : Nat × Nat × Except Unit α)
    (he : e ∈ E) (herr : e.2.2 = .error ()) :
    fillSlots slots E = .error () := by
  induction E generalizing slots with
  | nil => cases he
  | cons f fs ih =>
      obtain ⟨d, i, r⟩ := f
      cases r with
      | error u => rfl
      | ok v =>
          rcases List.mem_cons.mp he with h | h
          · subst h; cases herr
          · exact ih _ h

/-- A schedule with no rejection fills the slot array by folding its events. -/
theorem fillSlots_ok {α : Type} (E : List (Nat × Nat × Except Unit α))
    (slots : List (Option α)) (h : ∀ e ∈ E, e.2.2 ≠ Except.error ()) :
    fillSlots slots E = .ok (E.foldl applyEvent slots) := by
  induction E generalizing slots with
  | nil => rfl
  | cons f fs ih =>
      obtain ⟨d, i, r⟩ := f
      cases r with
      | error u => exact absurd rfl (h _ (List.mem_cons_self _ _))
      | ok v =>
          simpa [fillSlots, applyEvent] using
            ih (slots.set i (some v)) fun e he => h e (List.mem_cons_of_mem _ he)

theorem collectSlots_map_some {α : Type} (vs : List α) :
    collectSlots (vs.map some) = some vs := by
  induction vs with
  | nil => rfl
  | cons v vs ih => simp [collectSlots, ih]

/-- Filling slots left to right from a position past a fixed prefix. -/
theorem foldl_set_enumFrom {α : Type} (vals : List α) (us ws : List (Option α))
    (h : vals.length ≤ ws.length) :
    (vals.enumFrom us.length).foldl (fun s p => s.set p.1 (some p.2)) (us ++ ws)
      = us ++ vals.map some ++ ws.drop vals.length := by
  induction vals generalizing us ws with
  | nil => simp
  | cons v vs ih =>
      cases ws with
      | nil => simp at h
      | cons w ws' =>
        have hset : (us ++ w :: ws').set us.length (some v)
            = (us ++ [some v]) ++ ws' := by
          simp [List.set_append]
        have hlen : vs.length ≤ ws'.length := by
          simpa using h
        have hrec := ih (us ++ [some v]) ws' hlen
        simp only [List.enumFrom_cons, List.foldl_cons, hset]
        simp only [List.length_append, List.length_singleton] at hrec
        rw [hrec]
        simp [List.append_assoc]

/-- If every task of the list fulfils (the results column is `vals.map .ok`),
the aggregate fulfils with the values joined positionally — whatever the
delays, i.e. whatever order the sub-tasks complete in. -/
theorem promiseAll_ok {α : Type} (tasks : List (Nat × Except Unit α)) (vals : List α)
    (h : tasks.map (·.2) = vals.map Except.ok) :
    promiseAll tasks = .ok vals := by
  classical
  set C : List (Nat × Nat × Except Unit α) :=
    (tasks.enum).map fun p => (p.2.1, p.1, p.2.2) with hC
  have hperm : (scheduleOf tasks).Perm C := scheduleOf_perm tasks
  -- every member of the canonical event list is determined by its index
  have hmem : ∀ e ∈ C, tasks.get? e.2.1 = some (e.1, e.2.2) := by
    intro e he
    rw [hC] at he
    obtain ⟨p, hp, rfl⟩ := List.mem_map.mp he
    simpa using List.mem_enum_iff_get?.mp hp
  -- no event of the canonical (hence of the sorted) list rejects
  have hok : ∀ e ∈ C, e.2.2 ≠ Except.error () := by
    intro e he heq
    have := hmem e he
    have h2 : e.2.2 ∈ tasks.map (·.2) := by
      refine List.mem_map.mpr ⟨(e.1, e.2.2), ?_, rfl⟩
      exact List.get?_mem this
    rw [h, heq] at h2
    obtain ⟨v, hv, hvE⟩ := List.mem_map.mp h2
    cases hvE
  have hokE : ∀ e ∈ scheduleOf tasks, e.2.2 ≠ Except.error () :=
    fun e he => hok e (hperm.mem_iff.mp he)
  -- the fold over events commutes for members, because distinct members
  -- write to distinct slots
  have hcomm : ∀ x ∈ scheduleOf tasks, ∀ y ∈ scheduleOf tasks,
      ∀ z : List (Option α), applyEvent (applyEvent z x) y
        = applyEvent (applyEvent z y) x := by
    intro x hx y hy z
    have hxC := hmem x (hperm.mem_iff.mp hx)
    have hyC := hmem y (hperm.mem_iff.mp hy)
    by_cases hij : x.2.1 = y.2.1
    · have : (x.1, x.2.2) = (y.1, y.2.2) := by
        rw [hij] at hxC
        exact Option.some_injective _ (hxC.symm.trans hyC)
      have hxy : x = y := by
        obtain ⟨x1, x21, x22⟩ := x
        obtain ⟨y1, y21, y22⟩ := y
        simp_all
      rw [hxy]
    · obtain ⟨x1, x21, x22⟩ := x
      obtain ⟨y1, y21, y22⟩ := y
      cases x22 <;> cases y22 <;>
        simp [applyEvent, List.set_comm _ _ _ hij]
  have hfold : (scheduleOf tasks).foldl applyEvent (List.replicate tasks.length none)
      = C.foldl applyEvent (List.replicate tasks.length none) :=
    hperm.foldl_eq' hcomm _
  -- the canonical fold writes the values positionally
  have hCfold : C.foldl applyEvent (List.replicate tasks.length none)
      = vals.map some := by
    have htlen : tasks.length = vals.length := by
      have := congrArg List.length h
      simpa using this
    have henum : C.map (fun e => (e.2.1, e.2.2))
        = (vals.enum).map fun p => (p.1, Except.ok p.2) := by
      rw [hC]
      have h1 : (tasks.map (·.2)).enum = (vals.map Except.ok).enum := by rw [h]
      rw [List.enum_map, List.enum_map] at h1
      have h2 := congrArg (List.map fun p : Nat × Except Unit α => (p.1, p.2)) h1
      simpa [List.map_map, Function.comp] using h2
    have hproj : C.foldl applyEvent (List.replicate tasks.length none)
        = (C.map fun e => (e.2.1, e.2.2)).foldl
            (fun s p => match p.2 with
              | .ok v => s.set p.1 (some v)
              | .error _ => s) (List.replicate tasks.length none) := by
      rw [hC, List.map_map, List.foldl_map, List.foldl_map]
      refine List.foldl_ext _ _ _ fun s e _ => ?_
      obtain ⟨i, d, r⟩ := e
      cases r <;> rfl
    rw [hproj, henum, List.foldl_map]
    have hstep : (List.foldl
        (fun s (p : Nat × α) =>
          match (p.1, Except.ok (ε := Unit) p.2).2 with
          | .ok v => s.set (p.1, Except.ok (ε := Unit) p.2).1 (some v)
          | .error _ => s)
        (List.replicate tasks.length none) vals.enum)
        = List.foldl (fun s p => s.set p.1 (some p.2))
            (List.replicate tasks.length none) vals.enum :=
      List.foldl_ext _ _ _ fun s p _ => rfl
    rw [hstep]
    have hfin := foldl_set_enumFrom (α := α) vals []
      (List.replicate tasks.length none) (by simp [htlen])
    simpa [htlen, List.enum] using hfin
  unfold promiseAll
  rw [fillSlots_ok _ _ hokE, hfold, hCfold]
  simp [collectSlots_map_some]

/-- If any task of the list rejects, the aggregate rejects. -/
theorem promiseAll_error {α : Type} (tasks : List (Nat × Except Unit α))
    (t : Nat × Except Unit α) (ht : t ∈ tasks) (herr : t.2 = .error ()) :
    promiseAll tasks = .error () := by
  obtain ⟨i, hi⟩ := List.get?_of_mem ht
  have hmemC : (t.1, i, t.2) ∈ (tasks.enum).map fun p => (p.2.1, p.1, p.2.2) := by
    refine List.mem_map.mpr ⟨(i, t), List.mem_enum_iff_get?.mpr hi, rfl⟩
  have hmemE : (t.1, i, t.2) ∈ scheduleOf tasks :=
    (scheduleOf_perm tasks).mem_iff.mpr hmemC
  unfold promiseAll
  rw [fillSlots_error (scheduleOf tasks) _ _ hmemE herr]

/-! ### Auxiliary facts about `promiseAll` -/
theorem fillSlots_length {α : Type} (E : List (Nat × Nat × Except Unit α))
    (slots out : List (Option α)) (h : fillSlots slots E = .ok out) :
    out.length = slots.length := by
  induction E generalizing slots with
  | nil =>
      simp only [fillSlots] at h
      cases h
      rfl
  | cons f fs ih =>
      obtain ⟨d, i, r⟩ := f
      cases r with
      | error u => simp [fillSlots] at h
      | ok v =>
          have := ih _ h
          simpa using this

theorem collectSlots_length {α : Type} (slots : List (Option α)) (vs : List α)
    (h : collectSlots slots = some vs) : vs.length = slots.length := by
  induction slots generalizing vs with
  | nil =>
      simp only [collectSlots] at h
      cases h
      rfl
  | cons o rest ih =>
      cases o with
      | none => simp [collectSlots] at h
      | some v =>
          simp only [collectSlots, Option.map_eq_some'] at h
          obtain ⟨ws, hws, rfl⟩ := h
          simp [ih _ hws]

theorem promiseAll_length {α : Type} (tasks : List (Nat × Except Unit α))
    (vs : List α) (h : promiseAll tasks = .ok vs) : vs.length = tasks.length := by
  unfold promiseAll at h
  cases hfill : fillSlots (List.replicate tasks.length none) (scheduleOf tasks) with
  | error u => rw [hfill] at h; cases h
  | ok slots =>
      rw [hfill] at h
      have h' : (match collectSlots slots with
          | some ws => Except.ok ws
          | none => Except.error ()) = Except.ok vs := h
      cases hcol : collectSlots slots with
      | none => rw [hcol] at h'; cases h'
      | some ws =>
          rw [hcol] at h'
          have hwv : ws = vs := by
            simpa using h'
          subst hwv
          have h1 := collectSlots_length slots ws hcol
          have h2 := fillSlots_length _ _ _ hfill
          simp [h1, h2]

/-! ## Claim theorems about `extractData` -/
/-- **C9** — a falsy argument and a truthy argument that is neither a
`DataTransfer` nor a `ClipboardItem` both make `extractData` resolve with
`undefined`; neither path raises (no `Except.error`). -/
theorem extractData_unrecognized_undefined :
    extractData RawInput.nullish = Except.ok none ∧
    extractData RawInput.unrecognized = Except.ok none :=
  ⟨rfl, rfl⟩

/-- **C7** — for a `DataTransfer` advertising types `ts` whose `getData`
returns `ds` positionally, the entry's `types` is exactly the positional zip
of `ts` and `ds` (hence has `ts.length` elements, in enumeration order, the
`i`-th pairing `ts[i]` with payload `ds[i]`). -/
theorem extractData_dataTransfer_types (d : DataTransferM) (ts ds : List String)
    (hts : d.typesL = ts) (hdata : ts.map d.getData = ds) :
    ∃ entry tys, extractData (.dataTransfer d) = .ok (some entry) ∧
      entry.types = some tys ∧
      tys = (ts.zip ds).map (fun p => { type := p.1, data := .str p.2 }) ∧
      tys.length = ts.length := by
  subst hts
  subst hdata
  refine ⟨_, _, rfl, rfl, ?_, by simp⟩
  induction d.typesL with
  | nil => rfl
  | cons t rest ih => simpa using ih

/-- Witness for C7 at the spec's own example input. -/
theorem extractData_dataTransfer_types_witness :
    ∃ entry tys, extractData (.dataTransfer exampleTransfer) = .ok (some entry) ∧
      entry.types = some tys ∧
      tys = ((["text/plain", "text/html"].zip ["hello", "<b>hello</b>"]).map
        (fun p => { type := p.1, data := .str p.2 })) ∧
      tys.length = (["text/plain", "text/html"] : List String).length :=
  extractData_dataTransfer_types exampleTransfer
    ["text/plain", "text/html"] ["hello", "<b>hello</b>"] rfl (by decide)

/-- **C5** — for a `ClipboardItem` whose per-type fetches all fulfil with the
blobs `blobs` (positionally), the entry lists the representations in the
original enumeration order of `typesL`, *whatever the completion delays of
the concurrent fetches are*: the right-hand side does not mention `c.delay`. -/
theorem extractData_clipboardItem_order (c : ClipboardItemM) (blobs : List FileLike)
    (hfetch : c.typesL.map c.getType = blobs.map Except.ok) :
    extractData (.clipboardItem c) = .ok (some
      { type := "ClipboardItem"
        types := some ((c.typesL.zip blobs).map fun p =>
          { type := p.1
            data :=
              if p.2.ftype.startsWith "text/" then .str p.2.content
              else .file ((createFileInfo (some p.2)).getD defaultFileInfo) })
        items := none
        files := none }) := by
  have key : ∀ (ts : List String) (bs : List FileLike),
      ts.map c.getType = bs.map Except.ok →
      (ts.map (clipTask c)).map (·.2)
        = ((ts.zip bs).map fun p =>
            ({ type := p.1
               data :=
                 if p.2.ftype.startsWith "text/" then .str p.2.content
                 else .file ((createFileInfo (some p.2)).getD defaultFileInfo) }
              : ClipboardTypeData)).map Except.ok := by
    intro ts
    induction ts with
    | nil =>
        intro bs hb
        cases bs with
        | nil => rfl
        | cons b rest => simp at hb
    | cons t rest ih =>
        intro bs hb
        cases bs with
        | nil => simp at hb
        | cons b brest =>
            simp only [List.map_cons, List.cons.injEq] at hb
            obtain ⟨hb1, hb2⟩ := hb
            simp only [List.map_cons, List.zip_cons_cons, List.cons.injEq]
            refine ⟨?_, ih brest hb2⟩
            simp [clipTask, hb1, Except.map]
  have hall := key c.typesL blobs hfetch
  have hpa := promiseAll_ok (c.typesL.map (clipTask c)) _ hall
  simp [extractData, hpa, Except.map]

/-- Witness for C5: with the first fetch delayed past the second, the entry
still lists `text/plain` before `text/html`. -/
theorem extractData_clipboardItem_order_witness :
    extractData (.clipboardItem delayedItem) = .ok (some
      { type := "ClipboardItem"
        types := some (((["text/plain", "text/html"] : List String).zip
          [(⟨none, 5, "text/plain", "hello"⟩ : FileLike),
           ⟨none, 12, "text/html", "<b>hello</b>"⟩]).map fun p =>
          { type := p.1
            data :=
              if p.2.ftype.startsWith "text/" then .str p.2.content
              else .file ((createFileInfo (some p.2)).getD defaultFileInfo) })
        items := none
        files := none }) :=
  extractData_clipboardItem_order delayedItem
    [⟨none, 5, "text/plain", "hello"⟩, ⟨none, 12, "text/html", "<b>hello</b>"⟩]
    rfl

/-- **C4, counterexample** — on a multi-type transfer advertising no types,
no items and no files, `extractData` still resolves with a *defined* entry
whose `types`, `items` and `files` are all present but empty, so no field is
non-empty. -/
theorem extractData_empty_entry_counterexample :
    extractData (.dataTransfer emptyTransfer) = .ok (some
      { type := "DataTransfer", types := some [], items := some [], files := some [] }) ∧
    hasNonemptyField
      { type := "DataTransfer", types := some [], items := some [], files := some [] }
      = false :=
  ⟨rfl, rfl⟩

/-- **C4, amended** — the invariant holds exactly when the recognized input
advertises at least one representation: a `DataTransfer` with at least one
type, item or file yields an entry with a non-empty field, and so does a
`ClipboardItem` with at least one advertised type (when extraction
resolves); an input advertising nothing yields a defined entry all of whose
fields are empty. -/
theorem extractData_nonempty_amended :
    (∀ (d : DataTransferM) (entry : ExtractedData),
        extractData (.dataTransfer d) = .ok (some entry) →
        (d.typesL ≠ [] ∨ (∃ a l, d.items = some (a :: l)) ∨
          (∃ a l, d.files = some (a :: l))) →
        hasNonemptyField entry = true) ∧
    (∀ (c : ClipboardItemM) (entry : ExtractedData),
        extractData (.clipboardItem c) = .ok (some entry) →
        c.typesL ≠ [] →
        hasNonemptyField entry = true) := by
  constructor
  · intro d entry h hne
    simp only [extractData, Except.ok.injEq, Option.some.injEq] at h
    subst h
    rcases hne with h1 | ⟨a, l, h2⟩ | ⟨a, l, h3⟩
    · obtain ⟨t, rest, hL⟩ := List.exists_cons_of_ne_nil h1
      simp [hasNonemptyField, hL]
    · simp [hasNonemptyField, h2]
    · simp [hasNonemptyField, h3]
  · intro c entry h hne
    simp only [extractData] at h
    cases hall : promiseAll (c.typesL.map (clipTask c)) with
    | error u => rw [hall] at h; cases h
    | ok tys =>
        rw [hall] at h
        simp only [Except.map, Except.ok.injEq, Option.some.injEq] at h
        subst h
        have hlen := promiseAll_length _ _ hall
        obtain ⟨t, rest, hL⟩ := List.exists_cons_of_ne_nil hne
        rw [hL] at hlen
        cases tys with
        | nil => simp at hlen
        | cons x xs => simp [hasNonemptyField]

/-- Witness for C4's amended claim: a transfer with one advertised type. -/
theorem extractData_nonempty_amended_witness :
    hasNonemptyField
      { type := "DataTransfer"
        types := some [{ type := "text/plain", data := .str "hi" }]
        items := none
        files := none } = true :=
  extractData_nonempty_amended.1
    { typesL := ["text/plain"], getData := fun _ => "hi", items := none, files := none }
    _ rfl (Or.inl (by decide))

/-- **C2, counterexample** — when one of two advertised sub-fetches fails and
the other succeeds, `extractData` does not return a defined entry with the
failing representation omitted: the whole extraction rejects. -/
theorem extractData_partial_failure_counterexample :
    extractData (.clipboardItem partialFailItem) = .error () := rfl

/-- **C2, amended** — a single failing sub-fetch aborts the whole entry: if
any advertised type's fetch rejects, `extractData` rejects (the source
awaits a bare `Promise.all` with no per-type error handling), so no partial
entry is ever produced. -/
theorem extractData_subfetch_failure_amended (c : ClipboardItemM) (t : String)
    (ht : t ∈ c.typesL) (hfail : c.getType t = .error ()) :
    extractData (.clipboardItem c) = .error () := by
  have hmem : clipTask c t ∈ c.typesL.map (clipTask c) :=
    List.mem_map.mpr ⟨t, ht, rfl⟩
  have herr : (clipTask c t).2 = .error () := by
    simp [clipTask, hfail, Except.map]
  have hpa := promiseAll_error _ _ hmem herr
  simp [extractData, hpa, Except.map]

/-- Witness for C2's amended claim at the concrete two-type input. -/
theorem extractData_subfetch_failure_amended_witness :
    extractData (.clipboardItem partialFailItem) = .error () :=
  extractData_subfetch_failure_amended partialFailItem "text/html"
    (by decide) rfl

/-! ### Claim theorems about the writer -/
/-- **C1, counterexample** — `copyToClipboard` invoked with a non-string
payload (a `FileInfo`) does *not* return `false`: the writer performs no
runtime string check, coerces the payload and reports `true` when the legacy
path runs without throwing. -/
theorem copyToClipboard_nonstring_counterexample :
    (copyToClipboard (.file sampleFileInfo) false goodEnv emptyHost).1 = true :=
  rfl

/-- **C1, amended** — the refusal of non-string payloads lives in the caller
`copyToClipboardHandler` (src/unnamed/part_010), which returns early without
invoking the writer; `copyToClipboard` itself performs no string check and
never throws (it is total): on a coerced non-string payload it returns `true`
exactly when the legacy path does not throw or the final fallback write
resolves — never the unconditional `false` the claim demands. -/
theorem copyToClipboard_nonstring_amended :
    (∀ (f : FileInfo) (t : String) (env : ClipEnv) (s : HostState),
      copyToClipboardHandler (.file f) t env s = none) ∧
    (∀ (f : FileInfo) (b : Bool) (env : ClipEnv) (s : HostState),
      (copyToClipboard (.file f) b env s).1
        = (!(env.exec == ExecBehavior.throws) || catchAttemptSucceeds env)) := by
  refine ⟨fun f t env s => rfl, fun f b env s => ?_⟩
  obtain ⟨ex, cp, wp, wtp, wr, wtr⟩ := env
  cases ex <;> cases b <;> cases cp <;> cases wtp <;> cases wtr <;>
    simp [copyToClipboard, catchPhase, catchAttemptSucceeds]

/-- **C3, counterexample** — in an environment where *every* strategy fails
(the copy command reports failure and no asynchronous API exists at all),
`copyToClipboard("hello", false)` still returns `true`: the source ignores
`execCommand`'s result and returns `true` whenever the legacy DOM path did
not throw. -/
theorem copyToClipboard_true_despite_all_failures :
    legacySucceeded allFailEnv = false ∧
    modernSucceeded false allFailEnv = false ∧
    catchAttemptSucceeds allFailEnv = false ∧
    (copyToClipboard (.str "hello") false allFailEnv emptyHost).1 = true :=
  ⟨rfl, rfl, rfl, rfl⟩

/-- **C3, amended** — the writer's result does not track strategy success:
for every content and flag it returns `true` iff the legacy DOM path did not
throw, or (when it threw) the final bare `writeText` fallback resolved.  The
true half of the original claim survives: with only the legacy path available
(modern API entirely absent), `copyToClipboard("hello", false)` returns
`true`. -/
theorem copyToClipboard_result_amended :
    (∀ (content : StrOrFile) (isJson : Bool) (env : ClipEnv) (s : HostState),
        (copyToClipboard content isJson env s).1
          = (!(env.exec == ExecBehavior.throws) || catchAttemptSucceeds env)) ∧
    (∀ (env : ClipEnv) (s : HostState), env.exec ≠ ExecBehavior.throws →
        (copyToClipboard (.str "hello") false env s).1 = true) := by
  constructor
  · intro content isJson env s
    obtain ⟨ex, cp, wp, wtp, wr, wtr⟩ := env
    cases ex <;> cases isJson <;> cases cp <;> cases wtp <;> cases wtr <;>
      simp [copyToClipboard, catchPhase, catchAttemptSucceeds]
  · intro env s hne
    obtain ⟨ex, cp, wp, wtp, wr, wtr⟩ := env
    cases ex <;> simp_all [copyToClipboard, catchPhase]

/-- Witness for C3's amended claim: the legacy-only environment. -/
theorem copyToClipboard_result_amended_witness :
    (copyToClipboard (.str "hello") false legacyOnlyEnv emptyHost).1 = true :=
  copyToClipboard_result_amended.2 legacyOnlyEnv emptyHost (by decide)

/-- **C8, counterexample** — the original claim promises removal of the
off-screen buffer and (for structured content) the transient copy handler
"regardless of whether the synchronous copy command succeeds, fails, or
throws", leaving the document as before the call.  The *throws* case refutes
it: `removeEventListener` (src/unnamed/part_011 line 158) and
`removeChild` (line 164) are straight-line statements inside the `try` with
no `finally`, so a throwing `document.execCommand('copy')` (line 157) jumps
to the `catch` (line 190) first.  Starting from a clean document, the buffer
list and the handler count are both left non-empty. -/
theorem copyToClipboard_cleanup_counterexample :
    ((copyToClipboard (.str "x") true throwEnv emptyHost).2.buffers = ["x"] ∧
      (copyToClipboard (.str "x") true throwEnv emptyHost).2.copyHandlers = 1) ∧
    emptyHost.buffers = [] ∧ emptyHost.copyHandlers = 0 :=
  ⟨⟨rfl, rfl⟩, rfl, rfl⟩

/-- **C8, amended** — the complete cleanup behaviour, for every content,
flag, environment and starting document: whenever the copy command *returns*
(reporting success or failure alike, `env.exec ≠ throws`) the buffer and the
handler counts are restored exactly; when it *throws*, control jumps to
`catch` before the removal statements, so the appended buffer stays and,
when `isJson`, so does the registered handler. -/
theorem copyToClipboard_cleanup_amended (content : StrOrFile) (isJson : Bool)
    (env : ClipEnv) (s : HostState) :
    (env.exec ≠ ExecBehavior.throws →
      (copyToClipboard content isJson env s).2.buffers = s.buffers ∧
      (copyToClipboard content isJson env s).2.copyHandlers
        = s.copyHandlers) ∧
    (env.exec = ExecBehavior.throws →
      (copyToClipboard content isJson env s).2.buffers
        = s.buffers ++ [coerceToString content] ∧
      (copyToClipboard content isJson env s).2.copyHandlers
        = s.copyHandlers + (if isJson then 1 else 0)) := by
  obtain ⟨ex, cp, wp, wtp, wr, wtr⟩ := env
  constructor
  · intro hx
    cases ex with
    | throws => exact absurd rfl hx
    | retTrue =>
        cases isJson <;> cases cp <;> cases wp <;> cases wtp <;> cases wr <;>
          cases wtr <;> simp [copyToClipboard, execPhase, modernPhase]
    | retFalse =>
        cases isJson <;> cases cp <;> cases wp <;> cases wtp <;> cases wr <;>
          cases wtr <;> simp [copyToClipboard, execPhase, modernPhase]
  · intro hx
    cases ex with
    | throws =>
        cases isJson <;> cases cp <;> cases wtp <;> cases wtr <;>
          simp [copyToClipboard, catchPhase]
    | retTrue => exact ExecBehavior.noConfusion hx
    | retFalse => exact ExecBehavior.noConfusion hx

/-- Witness for C8's amended claim, both halves at concrete inputs: a
*failed* (but returning) copy command cleans up a document that already
carries a buffer and two handlers, and a *throwing* one leaks exactly the
appended buffer and the one registered handler. -/
theorem copyToClipboard_cleanup_amended_witness :
    ((copyToClipboard (.str "x") true allFailEnv
        { buffers := ["old"], copyHandlers := 2
          clipPlain := none, clipJson := none }).2.buffers = ["old"] ∧
      (copyToClipboard (.str "x") true allFailEnv
        { buffers := ["old"], copyHandlers := 2
          clipPlain := none, clipJson := none }).2.copyHandlers = 2) ∧
    ((copyToClipboard (.str "x") true throwEnv
        { buffers := ["old"], copyHandlers := 2
          clipPlain := none, clipJson := none }).2.buffers = ["old", "x"] ∧
      (copyToClipboard (.str "x") true throwEnv
        { buffers := ["old"], copyHandlers := 2
          clipPlain := none, clipJson := none }).2.copyHandlers = 3) :=
  ⟨(copyToClipboard_cleanup_amended (.str "x") true allFailEnv
      { buffers := ["old"], copyHandlers := 2
        clipPlain := none, clipJson := none }).1 (by decide),
   (copyToClipboard_cleanup_amended (.str "x") true throwEnv
      { buffers := ["old"], copyHandlers := 2
        clipPlain := none, clipJson := none }).2 rfl⟩

/-! ### Decimal digit lemmas -/
theorem natDigitsAux_eq (fuel n : Nat) (h : n ≤ fuel) :
    natDigitsAux fuel n = Nat.digits 10 n := by
  induction fuel generalizing n with
  | zero =>
      interval_cases n
      simp [natDigitsAux]
  | succ fuel ih =>
      cases n with
      | zero => simp [natDigitsAux]
      | succ k =>
          rw [natDigitsAux, Nat.digits_def' (b := 10) (by norm_num) (Nat.succ_pos k)]
          have hdiv : (k + 1) / 10 ≤ fuel := by
            have := Nat.div_lt_self (Nat.succ_pos k) (by norm_num : 1 < 10)
            omega
          rw [ih _ hdiv]

theorem natDigitsLE_eq (n : Nat) : natDigitsLE n = Nat.digits 10 n :=
  natDigitsAux_eq n n le_rfl

theorem natDigitsBE_lt (n : Nat) : ∀ d ∈ natDigitsBE n, d < 10 := by
  intro d hd
  have : d ∈ Nat.digits 10 n := by
    rw [natDigitsBE, natDigitsLE_eq] at hd
    exact List.mem_reverse.mp hd
  exact Nat.digits_lt_base (by norm_num) this

theorem natDigitsBE_ne_nil (n : Nat) (h : n ≠ 0) : natDigitsBE n ≠ [] := by
  rw [natDigitsBE, natDigitsLE_eq]
  simpa using Nat.digits_ne_nil_iff_ne_zero.mpr h

theorem natDigitsBE_head_ne_zero (n : Nat) (h : n ≠ 0) :
    ∀ d ds, natDigitsBE n = d :: ds → d ≠ 0 := by
  intro d ds hd
  have hne : Nat.digits 10 n ≠ [] := Nat.digits_ne_nil_iff_ne_zero.mpr h
  have hlast := Nat.getLast_digit_ne_zero 10 h
  have hrev : (Nat.digits 10 n).reverse = d :: ds := by
    rw [← natDigitsLE_eq, ← natDigitsBE]
    exact hd
  have hsome : (Nat.digits 10 n).getLast? = some d := by
    rw [← List.head?_reverse, hrev]
    rfl
  rw [List.getLast?_eq_getLast _ hne] at hsome
  intro hdz
  apply hlast
  rw [Option.some_injective _ hsome, hdz]

theorem valOfDigits_foldl (ds : List Nat) (a : Nat) :
    ds.foldl (fun a d => 10 * a + d) a
      = a * 10 ^ ds.length + Nat.ofDigits 10 ds.reverse := by
  induction ds generalizing a with
  | nil => simp
  | cons d ds ih =>
      simp only [List.foldl_cons, List.reverse_cons, ih]
      rw [Nat.ofDigits_append]
      have hd : Nat.ofDigits 10 [d] = d := by
        simp [Nat.ofDigits]
      simp only [hd, List.length_reverse, List.length_cons]
      ring

theorem valOfDigits_eq_ofDigits (ds : List Nat) :
    valOfDigits ds = Nat.ofDigits 10 ds.reverse := by
  simpa using valOfDigits_foldl ds 0

theorem valOfDigits_natDigitsBE (n : Nat) : valOfDigits (natDigitsBE n) = n := by
  rw [valOfDigits_eq_ofDigits, natDigitsBE, natDigitsLE_eq, List.reverse_reverse]
  exact Nat.ofDigits_digits 10 n

theorem valOfDigits_append (a b : List Nat) :
    valOfDigits (a ++ b) = valOfDigits a * 10 ^ b.length + valOfDigits b := by
  simp only [valOfDigits, List.foldl_append]
  rw [valOfDigits_foldl b (List.foldl (fun a d => 10 * a + d) 0 a),
    valOfDigits_foldl b 0, ← valOfDigits]
  simp [valOfDigits_eq_ofDigits]

theorem valOfDigits_replicate_zero (j : Nat) :
    valOfDigits (List.replicate j 0) = 0 := by
  induction j with
  | zero => rfl
  | succ j ih =>
      have : List.replicate (j + 1) 0 = List.replicate j 0 ++ [0] := by
        rw [List.replicate_succ' ]
      rw [this, valOfDigits_append, ih]
      rfl

/-- Character facts for decimal digits below ten. -/
theorem digitChar_facts (d : Nat) (h : d < 10) :
    digitVal (digitChar d) = d ∧ isDigitChar (digitChar d) = true ∧
      isWsChar (digitChar d) = false := by
  interval_cases d <;> exact ⟨rfl, rfl, rfl⟩

theorem hexChar_facts (t : Nat) (h : t < 16) :
    hexVal (hexChar t) = t ∧ isHexChar (hexChar t) = true := by
  interval_cases t <;> exact ⟨rfl, rfl⟩

/-- `takeDigits` consumes exactly a printed digit run when the remainder does
not begin with a digit. -/
theorem takeDigits_roundtrip (ds : List Nat) (rest : List Char)
    (hds : ∀ d ∈ ds, d < 10) (hrest : digitStart rest = false) :
    takeDigits (ds.map digitChar ++ rest) = (ds, rest) := by
  induction ds with
  | nil =>
      cases rest with
      | nil => rfl
      | cons c cs =>
          simp only [digitStart] at hrest
          simp [takeDigits, hrest]
  | cons d ds ih =>
      have hd := digitChar_facts d (hds d (List.mem_cons_self _ _))
      have ih' := ih fun x hx => hds x (List.mem_cons_of_mem _ hx)
      simp only [List.map_cons, List.cons_append, takeDigits, hd.2.1, if_true]
      simp [List.append_eq, ih', hd.1]

/-! ### Normalisation lemmas -/
theorem normLoop_of_not_dvd (fuel M : Nat) (E : Int) (h : M % 10 ≠ 0) :
    normLoop fuel M E = (M, E) := by
  cases fuel with
  | zero => rfl
  | succ fuel =>
      have hc : (decide (M ≠ 0) && (M % 10 == 0)) = false := by
        simp [h]
      simp only [normLoop, hc]
      simp

theorem normLoop_strip (k : Nat) : ∀ (fuel M : Nat) (E : Int), M % 10 ≠ 0 →
    k ≤ fuel → normLoop fuel (M * 10 ^ k) E = (M, E + k) := by
  induction k with
  | zero =>
      intro fuel M E h _
      simpa using normLoop_of_not_dvd fuel M E h
  | succ k ih =>
      intro fuel M E h hk
      have hM : M ≠ 0 := by
        intro h0
        exact h (by simp [h0])
      cases fuel with
      | zero => omega
      | succ fuel =>
          have hcond : ((M * 10 ^ (k + 1) ≠ 0) && (M * 10 ^ (k + 1)) % 10 == 0) = true := by
            have h1 : M * 10 ^ (k + 1) ≠ 0 := by positivity
            have h2 : (M * 10 ^ (k + 1)) % 10 = 0 := by
              have : M * 10 ^ (k + 1) = (M * 10 ^ k) * 10 := by ring
              omega
            simp [h1, h2]
          have hdiv : M * 10 ^ (k + 1) / 10 = M * 10 ^ k := by
            have : M * 10 ^ (k + 1) = (M * 10 ^ k) * 10 := by ring
            omega
          rw [normLoop, if_pos (by simpa using hcond), hdiv, ih fuel M (E + 1) h (by omega)]
          congr 1
          push_cast
          ring

theorem normLoop_exit (fuel M : Nat) (E : Int) (hM : M ≠ 0) (hfuel : M ≤ fuel) :
    (normLoop fuel M E).1 ≠ 0 ∧ (normLoop fuel M E).1 % 10 ≠ 0 := by
  induction fuel generalizing M E with
  | zero => omega
  | succ fuel ih =>
      by_cases h10 : M % 10 = 0
      · have hge : 10 ≤ M := by omega
        have hlt : M / 10 ≠ 0 := by omega
        have hfu : M / 10 ≤ fuel := by omega
        have hcond : ((M ≠ 0) && (M % 10 == 0)) = true := by simp [hM, h10]
        rw [normLoop, if_pos (by simpa using hcond)]
        exact ih (M / 10) (E + 1) hlt hfu
      · rw [normLoop_of_not_dvd _ _ _ h10]
        exact ⟨hM, h10⟩

theorem normNum_strip (m : Int) (k : Nat) (e : Int) (hm : m ≠ 0)
    (h : m.natAbs % 10 ≠ 0) :
    normNum (m * 10 ^ k) e = (m, e + k) := by
  have hM : m.natAbs ≠ 0 := by omega
  have hmk : m * 10 ^ k ≠ 0 := by positivity
  have habs : (m * 10 ^ k).natAbs = m.natAbs * 10 ^ k := by
    rw [Int.natAbs_mul]
    congr 1
    simp [Int.natAbs_pow]
  have hfuel : k ≤ m.natAbs * 10 ^ k := by
    have h1 : k < 10 ^ k := Nat.lt_pow_self (by norm_num) k
    have h2 : 1 * 10 ^ k ≤ m.natAbs * 10 ^ k :=
      Nat.mul_le_mul_right _ (by omega)
    omega
  unfold normNum
  rw [if_neg hmk, habs, normLoop_strip k _ _ e h hfuel]
  have hsign : m * 10 ^ k < 0 ↔ m < 0 := by
    constructor
    · intro hlt
      by_contra hge
      push_neg at hge
      have : 0 ≤ m * 10 ^ k := by positivity
      omega
    · intro hlt
      have hpow : (0 : Int) < 10 ^ k := by positivity
      exact mul_neg_of_neg_of_pos hlt hpow
  by_cases hneg : m < 0
  · simp only [hsign.mpr hneg, if_pos]
    have : (m.natAbs : Int) = -m := Int.ofNat_natAbs_of_nonpos (by omega)
    simp [this]
  · have : ¬ (m * 10 ^ k < 0) := fun hc => hneg (hsign.mp hc)
    simp only [this, if_false]
    have : (m.natAbs : Int) = m := Int.natAbs_of_nonneg (by omega)
    simp [this]

theorem normNum_noop (m e : Int) (hm : m ≠ 0) (h : m.natAbs % 10 ≠ 0) :
    normNum m e = (m, e) := by
  have := normNum_strip m 0 e hm h
  simpa using this

theorem normNum_wf (m e : Int) :
    numWFb (normNum m e).1 (normNum m e).2 = true := by
  unfold normNum
  by_cases hm : m = 0
  · simp [hm, numWFb]
  · simp only [if_neg hm]
    have hM : m.natAbs ≠ 0 := by omega
    have hexit := normLoop_exit m.natAbs m.natAbs e hM le_rfl
    set p := normLoop m.natAbs m.natAbs e with hp
    have h1 : p.1 ≠ 0 := hexit.1
    have h10 : p.1 % 10 ≠ 0 := hexit.2
    by_cases hneg : m < 0
    · simp only [if_pos hneg, numWFb]
      have hz : -(p.1 : Int) ≠ 0 := by omega
      rw [if_neg hz]
      simp only [bne_iff_ne, ne_eq]
      omega
    · simp only [if_neg hneg, numWFb]
      have hz : (p.1 : Int) ≠ 0 := by omega
      rw [if_neg hz]
      simp only [bne_iff_ne, ne_eq]
      omega

/-! ### Whitespace and boundary lemmas -/
theorem skipWs_ws_append (t s : List Char) (h : ∀ c ∈ t, isWsChar c = true) :
    skipWs (t ++ s) = skipWs s := by
  induction t with
  | nil => rfl
  | cons c cs ih =>
      simp only [List.cons_append, skipWs, h c (List.mem_cons_self _ _), if_true]
      exact ih fun x hx => h x (List.mem_cons_of_mem _ hx)

theorem skipWs_not_ws (s : List Char)
    (h : ∀ c, s.head? = some c → isWsChar c = false) : skipWs s = s := by
  cases s with
  | nil => rfl
  | cons c cs => simp [skipWs, h c rfl]

theorem skipWs_indent (d : Nat) (s : List Char) :
    skipWs (indentChars d ++ s) = skipWs s :=
  skipWs_ws_append _ _ fun c hc => by
    rw [indentChars] at hc
    rw [List.eq_of_mem_replicate hc]
    rfl

theorem skipWs_newline_indent (d : Nat) (s : List Char) :
    skipWs ('\n' :: (indentChars d ++ s)) = skipWs s := by
  have h1 : skipWs ('\n' :: (indentChars d ++ s)) = skipWs (indentChars d ++ s) := by
    rw [skipWs, if_pos]
    rfl
  rw [h1, skipWs_indent]

theorem digitStart_of_numStop (rest : List Char) (h : numStopB rest = true) :
    digitStart rest = false := by
  cases rest with
  | nil => rfl
  | cons c cs =>
      simp only [numStopB, Bool.and_eq_true, Bool.not_eq_true'] at h
      simp [digitStart, h.1.1.1]

theorem takeDigits_not_digit (s : List Char) (h : digitStart s = false) :
    takeDigits s = ([], s) := by
  cases s with
  | nil => rfl
  | cons c cs =>
      simp only [digitStart] at h
      simp [takeDigits, h]

theorem isDigitChar_ne (c : Char) (h : isDigitChar c = true) :
    c ≠ '-' ∧ c ≠ '.' ∧ c ≠ 'e' ∧ c ≠ 'E' ∧ c ≠ '+' := by
  refine ⟨?_, ?_, ?_, ?_, ?_⟩ <;>
    (intro hc; subst hc; exact absurd h (by decide))

theorem digitChar_ne_zero_char (d : Nat) (h : d < 10) (hd : d ≠ 0) :
    digitChar d ≠ '0' := by
  interval_cases d <;> simp_all <;> decide

theorem replicate_zero_char (j : Nat) :
    List.replicate j '0' = (List.replicate j 0).map digitChar := by
  induction j with
  | zero => rfl
  | succ j ih =>
      simp only [List.replicate_succ, List.map_cons, ih]
      rfl

theorem valOfDigits_single (d : Nat) : valOfDigits [d] = d := by
  simp [valOfDigits]

/-! ### Number round-trip lemmas -/
theorem parseExpPart_stop (neg : Bool) (intDs fracDs : List Nat) (rest : List Char)
    (h : numStopB rest = true) :
    parseExpPart neg intDs fracDs rest = finishNumber neg intDs fracDs 0 rest := by
  cases rest with
  | nil => rfl
  | cons c cs =>
      simp only [numStopB, Bool.and_eq_true, Bool.not_eq_true'] at h
      obtain ⟨⟨⟨_, h2⟩, h3⟩, h4⟩ := h
      have hc : (c = 'e' || c = 'E') = false := by
        simp only [Bool.or_eq_false_iff, decide_eq_false_iff_not]
        exact ⟨by simpa using h3, by simpa using h4⟩
      simp [parseExpPart, hc]

theorem parseFracPart_stop (neg : Bool) (intDs : List Nat) (rest : List Char)
    (h : numStopB rest = true) :
    parseFracPart neg intDs rest = finishNumber neg intDs [] 0 rest := by
  cases rest with
  | nil => rfl
  | cons c cs =>
      have h' := h
      simp only [numStopB, Bool.and_eq_true, Bool.not_eq_true'] at h'
      obtain ⟨⟨⟨_, h2⟩, _⟩, _⟩ := h'
      have hdot : ¬ (c = '.') := by simpa using h2
      rw [parseFracPart, if_neg hdot]
      exact parseExpPart_stop neg intDs [] (c :: cs) h

theorem parseIntPart_digits (neg : Bool) (d : Nat) (ds : List Nat)
    (tail : List Char) (hlt : ∀ x ∈ d :: ds, x < 10) (hd0 : d ≠ 0)
    (htail : digitStart tail = false) :
    parseIntPart neg (digitChar d :: (ds.map digitChar ++ tail))
      = parseFracPart neg (d :: ds) tail := by
  have hd := digitChar_facts d (hlt d (List.mem_cons_self _ _))
  have hz : ¬ (digitChar d = '0') :=
    digitChar_ne_zero_char d (hlt d (List.mem_cons_self _ _)) hd0
  have htd := takeDigits_roundtrip ds tail
    (fun x hx => hlt x (List.mem_cons_of_mem _ hx)) htail
  simp only [parseIntPart, if_neg hz, hd.2.1, if_true]
  rw [htd]
  simp [hd.1]

theorem parseIntPart_zero (neg : Bool) (tail : List Char) :
    parseIntPart neg ('0' :: tail) = parseFracPart neg [0] tail := by
  rfl

/-- The exponent tail `e±ddd` parses back to its printed value. -/
theorem parseExpPart_exp (neg : Bool) (intDs fracDs : List Nat) (n1 : Int)
    (rest : List Char) (hn : n1 ≠ 0) (hstop : digitStart rest = false) :
    parseExpPart neg intDs fracDs
        ('e' :: ((if 0 ≤ n1 then ['+'] else ['-']) ++
          ((natDigitsBE n1.natAbs).map digitChar ++ rest)))
      = finishNumber neg intDs fracDs n1 rest := by
  have habs : n1.natAbs ≠ 0 := by omega
  obtain ⟨d, ds, hds⟩ := List.exists_cons_of_ne_nil (natDigitsBE_ne_nil _ habs)
  have hlt : ∀ x ∈ d :: ds, x < 10 := by
    rw [← hds]
    exact natDigitsBE_lt _
  have hval : valOfDigits (d :: ds) = n1.natAbs := by
    rw [← hds]
    exact valOfDigits_natDigitsBE _
  have htd := takeDigits_roundtrip (d :: ds) rest hlt hstop
  have hEDp : parseExpDigits neg intDs fracDs false
      ((d :: ds).map digitChar ++ rest)
      = finishNumber neg intDs fracDs ((n1.natAbs : Int)) rest := by
    rw [parseExpDigits, htd]
    simp [hval]
  have hEDn : parseExpDigits neg intDs fracDs true
      ((d :: ds).map digitChar ++ rest)
      = finishNumber neg intDs fracDs (-(n1.natAbs : Int)) rest := by
    rw [parseExpDigits, htd]
    simp [hval]
  by_cases hpos : 0 ≤ n1
  · have : (n1.natAbs : Int) = n1 := Int.natAbs_of_nonneg hpos
    simp only [if_pos hpos, List.cons_append, List.append_assoc]
    rw [parseExpPart, if_pos (by simp), parseExpSign, if_pos rfl]
    simp only [List.nil_append, hds]
    rw [hEDp, this]
  · have : -(n1.natAbs : Int) = n1 := by omega
    simp only [if_neg hpos, List.cons_append, List.append_assoc]
    rw [parseExpPart, if_pos (by simp), parseExpSign, if_neg (by decide),
      if_pos rfl]
    simp only [List.nil_append, hds]
    rw [hEDn, this]

/-- Evaluate `finishNumber` when the collected mantissa digits are the
digits of `|m|` padded with `t` zeros: normalisation recovers exactly
`(m, expVal - |fracDs| + t)`. -/
theorem finishNumber_eval (m : Int) (hm : m ≠ 0) (hmod : m.natAbs % 10 ≠ 0)
    (intDs fracDs : List Nat) (expVal : Int) (rest : List Char) (t : Nat)
    (hv : valOfDigits (intDs ++ fracDs) = m.natAbs * 10 ^ t) :
    finishNumber (decide (m < 0)) intDs fracDs expVal rest
      = some ((m, expVal - (fracDs.length : Int) + t), rest) := by
  unfold finishNumber
  have hm0 : (if decide (m < 0) = true then -(valOfDigits (intDs ++ fracDs) : Int)
      else (valOfDigits (intDs ++ fracDs) : Int)) = m * 10 ^ t := by
    rw [hv]
    by_cases hneg : m < 0
    · simp only [decide_eq_true_eq, if_pos hneg]
      push_cast
      rw [abs_of_neg hneg]
      ring
    · simp only [decide_eq_true_eq, if_neg hneg]
      push_cast
      rw [abs_of_nonneg (by omega : (0 : Int) ≤ m)]
  simp only [hm0]
  rw [show m * 10 ^ t = m * (10 : Int) ^ t from rfl,
    normNum_strip m t _ hm hmod]

/-- Dispatch over the optional minus sign of a printed number. -/
theorem parseNumberCore_sign (m : Int) (x : Nat) (hx : x < 10) (tl : List Char) :
    parseNumberCore ((if m < 0 then ['-'] else []) ++ digitChar x :: tl)
      = parseIntPart (decide (m < 0)) (digitChar x :: tl) := by
  by_cases hneg : m < 0
  · simp only [if_pos hneg, List.cons_append, List.nil_append]
    rw [parseNumberCore, if_pos rfl]
    simp [hneg]
  · simp only [if_neg hneg, List.nil_append]
    have hd := digitChar_facts x hx
    have hne := isDigitChar_ne _ hd.2.1
    rw [parseNumberCore, if_neg hne.1]
    simp [hneg]

theorem parseBody_integer (nb : Bool) (d : Nat) (ds : List Nat) (e : Int)
    (rest : List Char) (hlt : ∀ x ∈ d :: ds, x < 10) (hd0 : d ≠ 0)
    (hstop : numStopB rest = true)
    (he : 0 ≤ e) (hn : ((d :: ds).length : Int) + e ≤ 21) :
    parseIntPart nb (numBodyChars (d :: ds) e ++ rest)
      = finishNumber nb ((d :: ds) ++ List.replicate e.toNat 0) [] 0 rest := by
  have hc1 : (decide (0 ≤ e) &&
      decide (((d :: ds).length : Int) + e ≤ 21)) = true := by
    rw [decide_eq_true he, decide_eq_true hn]
    rfl
  have hlt2 : ∀ x ∈ d :: (ds ++ List.replicate e.toNat 0), x < 10 := by
    intro x hx
    rcases List.mem_cons.mp hx with h | h
    · exact h ▸ hlt d (List.mem_cons_self _ _)
    · rcases List.mem_append.mp h with h2 | h2
      · exact hlt x (List.mem_cons_of_mem _ h2)
      · rw [List.eq_of_mem_replicate h2]
        norm_num
  rw [numBodyChars]
  simp only [hc1, if_true, replicate_zero_char, List.map_cons, List.cons_append,
    List.append_assoc, ← List.map_append]
  rw [parseIntPart_digits nb d _ rest hlt2 hd0 (digitStart_of_numStop rest hstop),
    parseFracPart_stop _ _ _ hstop]

theorem parseBody_point (nb : Bool) (d : Nat) (ds : List Nat) (e : Int)
    (rest : List Char) (hlt : ∀ x ∈ d :: ds, x < 10) (hd0 : d ≠ 0)
    (hstop : numStopB rest = true)
    (he : ¬ 0 ≤ e) (hpos : 0 < ((d :: ds).length : Int) + e)
    (hle : ((d :: ds).length : Int) + e ≤ 21) :
    parseIntPart nb (numBodyChars (d :: ds) e ++ rest)
      = finishNumber nb
          ((d :: ds).take (((d :: ds).length : Int) + e).toNat)
          ((d :: ds).drop (((d :: ds).length : Int) + e).toNat) 0 rest := by
  have hc1 : (decide (0 ≤ e) &&
      decide (((d :: ds).length : Int) + e ≤ 21)) = false := by
    rw [decide_eq_false he]
    rfl
  have hc2 : (decide (0 < ((d :: ds).length : Int) + e) &&
      decide (((d :: ds).length : Int) + e ≤ 21)) = true := by
    rw [decide_eq_true hpos, decide_eq_true hle]
    rfl
  set N : Nat := (((d :: ds).length : Int) + e).toNat with hNdef
  have hN1 : 1 ≤ N := by omega
  have hNlt : N < (d :: ds).length := by
    have h2 : (((d :: ds).length : Int) + e) < ((d :: ds).length : Int) := by omega
    omega
  obtain ⟨P, hP⟩ : ∃ P, N = P + 1 := ⟨N - 1, by omega⟩
  have htake : (d :: ds).take N = d :: ds.take P := by
    rw [hP]
    rfl
  have hdrop : (d :: ds).drop N = ds.drop P := by
    rw [hP]
    rfl
  have hltT : ∀ x ∈ d :: ds.take P, x < 10 := by
    intro x hx
    rcases List.mem_cons.mp hx with h | h
    · exact h ▸ hlt d (List.mem_cons_self _ _)
    · exact hlt x (List.mem_cons_of_mem _ (List.mem_of_mem_take h))
  have hltD : ∀ x ∈ ds.drop P, x < 10 :=
    fun x hx => hlt x (List.mem_cons_of_mem _ (List.mem_of_mem_drop hx))
  have hdropNe : ds.drop P ≠ [] := by
    intro hcon
    have h3 := List.drop_eq_nil_iff_le.mp hcon
    have h4 : (d :: ds).length = ds.length + 1 := rfl
    omega
  rw [numBodyChars]
  simp only [hc1, hc2, Bool.false_eq_true, if_false, if_true, ← hNdef,
    htake, hdrop, List.map_cons, List.cons_append, List.append_assoc]
  rw [parseIntPart_digits nb d _ _ hltT hd0 (by rfl)]
  rw [parseFracPart, if_pos rfl]
  have htd := takeDigits_roundtrip (ds.drop P) rest hltD
    (digitStart_of_numStop rest hstop)
  simp only [htd]
  rw [if_neg hdropNe, parseExpPart_stop _ _ _ _ hstop]

theorem parseBody_small (nb : Bool) (d : Nat) (ds : List Nat) (e : Int)
    (rest : List Char) (hlt : ∀ x ∈ d :: ds, x < 10) (_hd0 : d ≠ 0)
    (hstop : numStopB rest = true)
    (hgt : -6 < ((d :: ds).length : Int) + e)
    (hle : ((d :: ds).length : Int) + e ≤ 0) :
    parseIntPart nb (numBodyChars (d :: ds) e ++ rest)
      = finishNumber nb [0]
          (List.replicate (-(((d :: ds).length : Int) + e)).toNat 0 ++ (d :: ds))
          0 rest := by
  have hk : (0 : Int) < ((d :: ds).length : Int) := by
    exact_mod_cast Nat.succ_pos ds.length
  have he : ¬ (0 ≤ e) := by omega
  have hc1 : (decide (0 ≤ e) &&
      decide (((d :: ds).length : Int) + e ≤ 21)) = false := by
    rw [decide_eq_false he]
    rfl
  have hc2 : (decide (0 < ((d :: ds).length : Int) + e) &&
      decide (((d :: ds).length : Int) + e ≤ 21)) = false := by
    rw [decide_eq_false (show ¬ (0 < ((d :: ds).length : Int) + e) by omega)]
    rfl
  have hc3 : (decide (-6 < ((d :: ds).length : Int) + e) &&
      decide (((d :: ds).length : Int) + e ≤ 0)) = true := by
    rw [decide_eq_true hgt, decide_eq_true hle]
    rfl
  set Z : Nat := (-(((d :: ds).length : Int) + e)).toNat with hZdef
  have hltF : ∀ x ∈ List.replicate Z 0 ++ (d :: ds), x < 10 := by
    intro x hx
    rcases List.mem_append.mp hx with h | h
    · rw [List.eq_of_mem_replicate h]
      norm_num
    · exact hlt x h
  have hne : List.replicate Z 0 ++ (d :: ds) ≠ [] := by simp
  rw [numBodyChars]
  simp only [hc1, hc2, hc3, Bool.false_eq_true, if_false, if_true, ← hZdef,
    List.cons_append]
  rw [parseIntPart_zero, parseFracPart, if_pos rfl]
  rw [show List.replicate Z '0' ++ (d :: ds).map digitChar ++ rest
      = (List.replicate Z 0 ++ (d :: ds)).map digitChar ++ rest from by
    simp [replicate_zero_char, List.map_append]]
  have htd := takeDigits_roundtrip (List.replicate Z 0 ++ (d :: ds)) rest hltF
    (digitStart_of_numStop rest hstop)
  simp only [htd]
  rw [if_neg hne, parseExpPart_stop _ _ _ _ hstop]

theorem parseBody_exp (nb : Bool) (d : Nat) (ds : List Nat) (e : Int)
    (rest : List Char) (hlt : ∀ x ∈ d :: ds, x < 10) (hd0 : d ≠ 0)
    (hstop : numStopB rest = true)
    (hout : 21 < ((d :: ds).length : Int) + e ∨ ((d :: ds).length : Int) + e ≤ -6) :
    parseIntPart nb (numBodyChars (d :: ds) e ++ rest)
      = finishNumber nb [d] ds (((d :: ds).length : Int) + e - 1) rest := by
  have hk : (0 : Int) < ((d :: ds).length : Int) := by
    exact_mod_cast Nat.succ_pos ds.length
  have hc1 : (decide (0 ≤ e) &&
      decide (((d :: ds).length : Int) + e ≤ 21)) = false := by
    rcases hout with h | h
    · rw [decide_eq_false (show ¬ (((d :: ds).length : Int) + e ≤ 21) by omega)]
      simp
    · rw [decide_eq_false (show ¬ (0 ≤ e) by omega)]
      rfl
  have hc2 : (decide (0 < ((d :: ds).length : Int) + e) &&
      decide (((d :: ds).length : Int) + e ≤ 21)) = false := by
    rcases hout with h | h
    · rw [decide_eq_false (show ¬ (((d :: ds).length : Int) + e ≤ 21) by omega)]
      simp
    · rw [decide_eq_false (show ¬ (0 < ((d :: ds).length : Int) + e) by omega)]
      rfl
  have hc3 : (decide (-6 < ((d :: ds).length : Int) + e) &&
      decide (((d :: ds).length : Int) + e ≤ 0)) = false := by
    rcases hout with h | h
    · rw [decide_eq_false (show ¬ (((d :: ds).length : Int) + e ≤ 0) by omega)]
      simp
    · rw [decide_eq_false (show ¬ (-6 < ((d :: ds).length : Int) + e) by omega)]
      rfl
  have hn1 : ((d :: ds).length : Int) + e - 1 ≠ 0 := by
    rcases hout with h | h <;> omega
  rw [numBodyChars]
  simp only [hc1, hc2, hc3, Bool.false_eq_true, if_false]
  cases ds with
  | nil =>
      simp only [List.isEmpty_nil, if_true, List.cons_append, List.nil_append,
        List.append_assoc]
      rw [show (digitChar d :: ('e' ::
            ((if 0 ≤ ((([d] : List Nat).length : Int) + e - 1) then ['+'] else ['-']) ++
              ((natDigitsBE ((([d] : List Nat).length : Int) + e - 1).natAbs).map digitChar
                ++ rest))))
          = digitChar d :: (([] : List Nat).map digitChar ++ ('e' ::
            ((if 0 ≤ ((([d] : List Nat).length : Int) + e - 1) then ['+'] else ['-']) ++
              ((natDigitsBE ((([d] : List Nat).length : Int) + e - 1).natAbs).map digitChar
                ++ rest)))) from rfl]
      rw [parseIntPart_digits nb d [] _ hlt hd0 (by rfl)]
      rw [parseFracPart, if_neg (by decide)]
      exact parseExpPart_exp nb [d] [] _ rest hn1
        (digitStart_of_numStop rest hstop)
  | cons g gs =>
      simp only [List.isEmpty_cons, if_false, Bool.false_eq_true,
        List.cons_append, List.nil_append, List.append_assoc, List.map_cons]
      rw [show (digitChar d :: ('.' :: (digitChar g :: ((gs.map digitChar) ++
            ('e' :: ((if 0 ≤ (((d :: g :: gs : List Nat).length : Int) + e - 1)
                then ['+'] else ['-']) ++
              ((natDigitsBE (((d :: g :: gs : List Nat).length : Int) + e - 1).natAbs).map
                  digitChar ++ rest)))))))
          = digitChar d :: (([] : List Nat).map digitChar ++ ('.' ::
              ((g :: gs).map digitChar ++
            ('e' :: ((if 0 ≤ (((d :: g :: gs : List Nat).length : Int) + e - 1)
                then ['+'] else ['-']) ++
              ((natDigitsBE (((d :: g :: gs : List Nat).length : Int) + e - 1).natAbs).map
                  digitChar ++ rest)))))) from rfl]
      rw [parseIntPart_digits nb d [] _
        (by
          intro x hx
          rw [List.mem_singleton.mp hx]
          exact hlt d (List.mem_cons_self _ _))
        hd0 (by rfl)]
      rw [parseFracPart, if_pos rfl]
      have hltG : ∀ x ∈ g :: gs, x < 10 :=
        fun x hx => hlt x (List.mem_cons_of_mem _ hx)
      have htd := takeDigits_roundtrip (g :: gs)
        ('e' :: ((if 0 ≤ (((d :: g :: gs : List Nat).length : Int) + e - 1)
            then ['+'] else ['-']) ++
          ((natDigitsBE (((d :: g :: gs : List Nat).length : Int) + e - 1).natAbs).map
              digitChar ++ rest))) hltG (by rfl)
      simp only [htd]
      rw [if_neg (by simp)]
      exact parseExpPart_exp nb [d] (g :: gs) _ rest hn1
        (digitStart_of_numStop rest hstop)

theorem numBodyChars_head (d : Nat) (ds : List Nat) (e : Int) (hd10 : d < 10) :
    ∃ x tl, x < 10 ∧ numBodyChars (d :: ds) e = digitChar x :: tl := by
  by_cases h1 : 0 ≤ e ∧ ((d :: ds).length : Int) + e ≤ 21
  · have heq : numBodyChars (d :: ds) e
        = digitChar d :: (ds.map digitChar ++ List.replicate e.toNat '0') := by
      rw [numBodyChars]
      simp only [decide_eq_true h1.1, decide_eq_true h1.2, Bool.and_self, if_true,
        List.map_cons, List.cons_append]
    exact ⟨d, _, hd10, heq⟩
  · by_cases h2 : 0 < ((d :: ds).length : Int) + e ∧ ((d :: ds).length : Int) + e ≤ 21
    · have hN1 : 1 ≤ (((d :: ds).length : Int) + e).toNat := by omega
      obtain ⟨P, hP⟩ : ∃ P, (((d :: ds).length : Int) + e).toNat = P + 1 :=
        ⟨(((d :: ds).length : Int) + e).toNat - 1, by omega⟩
      have heq : numBodyChars (d :: ds) e
          = digitChar d :: ((ds.take P).map digitChar ++
              '.' :: (ds.drop P).map digitChar) := by
        rw [numBodyChars]
        simp only [decide_eq_false (show ¬ 0 ≤ e by
            intro hcon
            exact h1 ⟨hcon, h2.2⟩), Bool.false_and, Bool.false_eq_true, if_false,
          decide_eq_true h2.1, decide_eq_true h2.2, Bool.and_self, if_true, hP,
          List.take_succ_cons, List.drop_succ_cons, List.map_cons, List.cons_append]
      exact ⟨d, _, hd10, heq⟩
    · by_cases h3 : -6 < ((d :: ds).length : Int) + e ∧ ((d :: ds).length : Int) + e ≤ 0
      · have heq : numBodyChars (d :: ds) e
            = digitChar 0 :: ('.' ::
                (List.replicate (-(((d :: ds).length : Int) + e)).toNat '0' ++
                  (d :: ds).map digitChar)) := by
          rw [numBodyChars]
          simp only [decide_eq_false (show ¬ 0 ≤ e by
              have hk : (0 : Int) < ((d :: ds).length : Int) := by
                exact_mod_cast Nat.succ_pos ds.length
              omega), Bool.false_and, Bool.false_eq_true, if_false,
            decide_eq_false (show ¬ 0 < ((d :: ds).length : Int) + e by omega),
            decide_eq_true h3.1, decide_eq_true h3.2, Bool.and_self, if_true,
            List.cons_append]
          rfl
        exact ⟨0, _, by norm_num, heq⟩
      · have heq : numBodyChars (d :: ds) e
            = digitChar d ::
                ((if ds.isEmpty then [] else '.' :: ds.map digitChar) ++
                  'e' :: ((if 0 ≤ ((d :: ds).length : Int) + e - 1
                      then ['+'] else ['-']) ++
                    (natDigitsBE (((d :: ds).length : Int) + e - 1).natAbs).map
                      digitChar)) := by
          rw [numBodyChars]
          simp only [show (decide (0 ≤ e) &&
            decide (((d :: ds).length : Int) + e ≤ 21)) = false by
              rcases not_and_or.mp h2 with h | h
              · rcases not_and_or.mp h3 with h' | h'
                · rw [decide_eq_false (show ¬ 0 ≤ e by
                    have hk : (0 : Int) < ((d :: ds).length : Int) := by
                      exact_mod_cast Nat.succ_pos ds.length
                    omega)]
                  rfl
                · rw [decide_eq_false (show ¬ (((d :: ds).length : Int) + e ≤ 21) by
                    omega)]
                  simp
              · rw [decide_eq_false h]
                simp,
          show (decide (0 < ((d :: ds).length : Int) + e) &&
            decide (((d :: ds).length : Int) + e ≤ 21)) = false by
              rcases not_and_or.mp h2 with h | h
              · rw [decide_eq_false h]
                rfl
              · rw [decide_eq_false h]
                simp,
          show (decide (-6 < ((d :: ds).length : Int) + e) &&
            decide (((d :: ds).length : Int) + e ≤ 0)) = false by
              rcases not_and_or.mp h3 with h | h
              · rw [decide_eq_false h]
                rfl
              · rw [decide_eq_false h]
                simp,
            Bool.false_eq_true, if_false, List.cons_append]
        exact ⟨d, _, hd10, heq⟩

theorem parseNumberCore_roundtrip (m e : Int) (rest : List Char)
    (hwf : numWFb m e = true) (hstop : numStopB rest = true) :
    parseNumberCore (numToChars m e ++ rest) = some ((m, e), rest) := by
  by_cases hm : m = 0
  · subst hm
    have he : e = 0 := by
      simp only [numWFb, if_pos rfl] at hwf
      simpa using hwf
    subst he
    rw [show numToChars 0 0 = ['0'] from rfl, List.singleton_append,
      show parseNumberCore ('0' :: rest) = parseIntPart false ('0' :: rest) from by
        rw [parseNumberCore, if_neg (by decide)],
      parseIntPart_zero, parseFracPart_stop _ _ _ hstop]
    simp [finishNumber, valOfDigits, normNum]
  · have hmod : m % 10 ≠ 0 := by
      simp only [numWFb, if_neg hm] at hwf
      simpa using hwf
    have hmodN : m.natAbs % 10 ≠ 0 := by omega
    have hMne : m.natAbs ≠ 0 := by omega
    obtain ⟨d, ds, hds⟩ := List.exists_cons_of_ne_nil (natDigitsBE_ne_nil _ hMne)
    have hlt : ∀ x ∈ d :: ds, x < 10 := by
      rw [← hds]
      exact natDigitsBE_lt _
    have hd10 : d < 10 := hlt d (List.mem_cons_self _ _)
    have hd0 : d ≠ 0 := natDigitsBE_head_ne_zero _ hMne d ds hds
    have hval : valOfDigits (d :: ds) = m.natAbs := by
      rw [← hds]
      exact valOfDigits_natDigitsBE _
    have hN : numToChars m e
        = (if m < 0 then ['-'] else []) ++ numBodyChars (d :: ds) e := by
      rw [numToChars, if_neg hm, hds]
    obtain ⟨x, tl, hx10, hbody⟩ := numBodyChars_head d ds e hd10
    have hsign : parseNumberCore (numToChars m e ++ rest)
        = parseIntPart (decide (m < 0)) (numBodyChars (d :: ds) e ++ rest) := by
      rw [hN, List.append_assoc, hbody, List.cons_append,
        parseNumberCore_sign m x hx10 (tl ++ rest), ← List.cons_append, ← hbody]
    rw [hsign]
    by_cases hb1 : 0 ≤ e ∧ ((d :: ds).length : Int) + e ≤ 21
    · rw [parseBody_integer _ d ds e rest hlt hd0 hstop hb1.1 hb1.2,
        finishNumber_eval m hm hmodN _ _ 0 rest e.toNat (by
          rw [List.append_nil, valOfDigits_append, valOfDigits_replicate_zero,
            hval]
          simp [List.length_replicate])]
      simp only [Option.some.injEq, Prod.mk.injEq, List.length_nil, true_and,
        and_true]
      omega
    · by_cases hb2 : 0 < ((d :: ds).length : Int) + e ∧
          ((d :: ds).length : Int) + e ≤ 21
      · have hbe : ¬ 0 ≤ e := fun hcon => hb1 ⟨hcon, hb2.2⟩
        rw [parseBody_point _ d ds e rest hlt hd0 hstop hbe hb2.1 hb2.2,
          finishNumber_eval m hm hmodN _ _ 0 rest 0 (by
            rw [List.take_append_drop, hval, pow_zero, mul_one])]
        simp only [Option.some.injEq, Prod.mk.injEq, List.length_drop, true_and,
          and_true]
        have hlen : (d :: ds).length = ds.length + 1 := rfl
        omega
      · by_cases hb3 : -6 < ((d :: ds).length : Int) + e ∧
            ((d :: ds).length : Int) + e ≤ 0
        · rw [parseBody_small _ d ds e rest hlt hd0 hstop hb3.1 hb3.2,
            finishNumber_eval m hm hmodN _ _ 0 rest 0 (by
              rw [show ([0] ++ (List.replicate
                    (-(((d :: ds).length : Int) + e)).toNat 0 ++ (d :: ds)))
                  = (0 :: List.replicate
                    (-(((d :: ds).length : Int) + e)).toNat 0) ++ (d :: ds) from by
                  simp,
                valOfDigits_append,
                show (0 :: List.replicate
                    (-(((d :: ds).length : Int) + e)).toNat 0)
                  = List.replicate
                    ((-(((d :: ds).length : Int) + e)).toNat + 1) 0 from by
                  rw [List.replicate_succ],
                valOfDigits_replicate_zero, hval, pow_zero, mul_one]
              ring)]
          simp only [Option.some.injEq, Prod.mk.injEq, List.length_append,
            List.length_replicate, true_and, and_true]
          have hlen : (d :: ds).length = ds.length + 1 := rfl
          omega
        · have hout : 21 < ((d :: ds).length : Int) + e ∨
              ((d :: ds).length : Int) + e ≤ -6 := by
            have hk : (0 : Int) < ((d :: ds).length : Int) := by
              exact_mod_cast Nat.succ_pos ds.length
            by_cases hc : ((d :: ds).length : Int) + e ≤ 21
            · right
              omega
            · left
              omega
          rw [parseBody_exp _ d ds e rest hlt hd0 hstop hout,
            finishNumber_eval m hm hmodN _ _ _ rest 0 (by
              rw [show ([d] ++ ds) = d :: ds from rfl, hval, pow_zero, mul_one])]
          simp only [Option.some.injEq, Prod.mk.injEq, true_and, and_true]
          have hlen : (d :: ds).length = ds.length + 1 := rfl
          omega

/-! ### String round-trip -/
theorem hex4_eval (a b : Char) (ha : isHexChar a = true) (hb : isHexChar b = true) :
    hex4 '0' '0' a b = some (16 * hexVal a + hexVal b) := by
  rw [hex4, show isHexChar '0' = true from rfl, ha, hb]
  simp [show hexVal '0' = 0 from rfl]

theorem parseStringBody_cons_escape (tail : List Char) :
    parseStringBody ('\\' :: tail) = parseEscape tail := rfl

theorem parseStringBody_cons_other (c : Char) (tail : List Char)
    (h1 : ¬ c = '\"') (h2 : ¬ c = '\\') (h3 : ¬ c.toNat < 32) :
    parseStringBody (c :: tail)
      = (match parseStringBody tail with
         | some p => some (c :: p.1, p.2)
         | none => none) := by
  rw [parseStringBody, if_neg h1, if_neg h2, if_neg h3]

theorem parseEscape_short (e ch : Char) (tail : List Char)
    (out : List Char × List Char) (hne : e ≠ 'u') (hdec : escDecode e = some ch)
    (hout : parseStringBody tail = some out) :
    parseEscape (e :: tail) = some (ch :: out.1, out.2) := by
  rw [parseEscape, if_neg hne, hdec, hout]

theorem parseEscape_u_step (a b : Char) (tail : List Char)
    (out : List Char × List Char)
    (ha : isHexChar a = true) (hb : isHexChar b = true)
    (hlow : 16 * hexVal a + hexVal b < 55296)
    (hout : parseStringBody tail = some out) :
    parseEscape ('u' :: '0' :: '0' :: a :: b :: tail)
      = some (Char.ofNat (16 * hexVal a + hexVal b) :: out.1, out.2) := by
  rw [parseEscape, if_pos rfl,
    show parseHexTail ('0' :: '0' :: a :: b :: tail)
      = (match hex4 '0' '0' a b with
         | none => none
         | some u =>
             if 55296 ≤ u && u ≤ 56319 then parseLowSurrogate u tail
             else if 56320 ≤ u && u ≤ 57343 then none
             else
               match parseStringBody tail with
               | some p => some (Char.ofNat u :: p.1, p.2)
               | none => none) from rfl,
    hex4_eval a b ha hb]
  rw [show (match (some (16 * hexVal a + hexVal b) : Option Nat) with
       | none => none
       | some u =>
           if 55296 ≤ u && u ≤ 56319 then parseLowSurrogate u tail
           else if 56320 ≤ u && u ≤ 57343 then none
           else
             match parseStringBody tail with
             | some p => some (Char.ofNat u :: p.1, p.2)
             | none => none)
      = (if 55296 ≤ 16 * hexVal a + hexVal b && 16 * hexVal a + hexVal b ≤ 56319
          then parseLowSurrogate (16 * hexVal a + hexVal b) tail
         else if 56320 ≤ 16 * hexVal a + hexVal b
              && 16 * hexVal a + hexVal b ≤ 57343 then none
         else
           match parseStringBody tail with
           | some p => some (Char.ofNat (16 * hexVal a + hexVal b) :: p.1, p.2)
           | none => none) from rfl,
    if_neg (by
      simp only [Bool.and_eq_true, decide_eq_true_eq]
      omega),
    if_neg (by
      simp only [Bool.and_eq_true, decide_eq_true_eq]
      omega),
    hout]

set_option maxHeartbeats 1000000 in
theorem parseStringBody_roundtrip (cs : List Char) (rest : List Char) :
    parseStringBody (escapeChars cs ++ '\"' :: rest) = some (cs, rest) := by
  induction cs with
  | nil =>
      rw [show escapeChars [] = [] from rfl, List.nil_append, parseStringBody,
        if_pos rfl]
  | cons c cs ih =>
      have hesc : ∀ (e ch : Char), e ≠ 'u' → escDecode e = some ch →
          parseStringBody (('\\' :: [e]) ++ (escapeChars cs ++ '\"' :: rest))
            = some (ch :: cs, rest) := by
        intro e ch hne hdec
        rw [List.cons_append, List.singleton_append, parseStringBody_cons_escape,
          parseEscape_short e ch _ (cs, rest) hne hdec ih]
      rw [show escapeChars (c :: cs) = escapeChar c ++ escapeChars cs from rfl]
      by_cases h1 : c = '\"'
      · subst h1
        rw [show escapeChar '\"' = ['\\', '\"'] from rfl, List.append_assoc]
        exact hesc '\"' '\"' (by decide) rfl
      · by_cases h2 : c = '\\'
        · subst h2
          rw [show escapeChar '\\' = ['\\', '\\'] from rfl, List.append_assoc]
          exact hesc '\\' '\\' (by decide) rfl
        · by_cases h3 : c = '\x08'
          · subst h3
            rw [show escapeChar '\x08' = ['\\', 'b'] from rfl, List.append_assoc]
            exact hesc 'b' '\x08' (by decide) rfl
          · by_cases h4 : c = '\x0c'
            · subst h4
              rw [show escapeChar '\x0c' = ['\\', 'f'] from rfl, List.append_assoc]
              exact hesc 'f' '\x0c' (by decide) rfl
            · by_cases h5 : c = '\n'
              · subst h5
                rw [show escapeChar '\n' = ['\\', 'n'] from rfl, List.append_assoc]
                exact hesc 'n' '\n' (by decide) rfl
              · by_cases h6 : c = '\r'
                · subst h6
                  rw [show escapeChar '\r' = ['\\', 'r'] from rfl,
                    List.append_assoc]
                  exact hesc 'r' '\r' (by decide) rfl
                · by_cases h7 : c = '\t'
                  · subst h7
                    rw [show escapeChar '\t' = ['\\', 't'] from rfl,
                      List.append_assoc]
                    exact hesc 't' '\t' (by decide) rfl
                  · by_cases h8 : c.toNat < 32
                    · have hhi : c.toNat / 16 < 16 := by omega
                      have hlo : c.toNat % 16 < 16 := by omega
                      have hfhi := hexChar_facts _ hhi
                      have hflo := hexChar_facts _ hlo
                      rw [show escapeChar c = ['\\', 'u', '0', '0',
                          hexChar (c.toNat / 16), hexChar (c.toNat % 16)] from by
                        rw [escapeChar, if_neg h1, if_neg h2, if_neg h3, if_neg h4,
                          if_neg h5, if_neg h6, if_neg h7, if_pos h8]]
                      simp only [List.cons_append, List.nil_append]
                      rw [parseStringBody_cons_escape,
                        parseEscape_u_step _ _ _ (cs, rest) hfhi.2 hflo.2
                          (by rw [hfhi.1, hflo.1]; omega) ih]
                      have hch : Char.ofNat (16 * hexVal (hexChar (c.toNat / 16))
                          + hexVal (hexChar (c.toNat % 16))) = c := by
                        rw [hfhi.1, hflo.1,
                          show 16 * (c.toNat / 16) + c.toNat % 16 = c.toNat by omega,
                          Char.ofNat_toNat]
                      rw [hch]
                    · rw [show escapeChar c = [c] from by
                        rw [escapeChar, if_neg h1, if_neg h2, if_neg h3, if_neg h4,
                          if_neg h5, if_neg h6, if_neg h7, if_neg h8],
                        List.singleton_append, List.cons_append,
                        parseStringBody_cons_other c _ h1 h2 h8, ih]

theorem appendF_nil : ∀ (fs : JsonFields), appendF fs .nil = fs
  | .nil => rfl
  | .cons k v tl => by simp [appendF, appendF_nil tl]

theorem appendF_assoc : ∀ (a : JsonFields) (b c : JsonFields),
    appendF (appendF a b) c = appendF a (appendF b c)
  | .nil, _, _ => rfl
  | .cons k v tl, b, c => by simp [appendF, appendF_assoc tl b c]

theorem insertField_append : ∀ (acc : JsonFields) (k : String) (v : Json),
    keyMemB k acc = false → insertField acc k v = appendF acc (.cons k v .nil)
  | .nil, _, _, _ => rfl
  | .cons k0 v0 tl, k, v, h => by
      simp only [keyMemB, Bool.or_eq_false_iff] at h
      rw [insertField, if_neg (by simpa using h.1), appendF,
        insertField_append tl k v h.2]

theorem keyMemB_insertField (x k : String) (v : Json) :
    ∀ (acc : JsonFields),
      keyMemB x (insertField acc k v) = (keyMemB x acc || k == x)
  | .nil => by simp [insertField, keyMemB]
  | .cons k0 v0 tl => by
      by_cases h : k0 = k
      · subst h
        simp only [insertField, if_pos rfl, keyMemB]
        by_cases hx : k0 == x
        · simp [hx]
        · simp [hx]
      · rw [insertField, if_neg h]
        simp only [keyMemB, keyMemB_insertField x k v tl]
        by_cases hx : (k0 == x)
        · simp [hx]
        · simp [hx, Bool.or_assoc]

theorem keysDisjoint_insert : ∀ (fs : JsonFields) (acc : JsonFields)
    (k : String) (v : Json), keysDisjointB fs acc = true →
    keyMemB k fs = false → keysDisjointB fs (insertField acc k v) = true
  | .nil, _, _, _, _, _ => rfl
  | .cons k1 v1 tl, acc, k, v, h1, h2 => by
      simp only [keysDisjointB, Bool.and_eq_true, Bool.not_eq_true'] at h1 ⊢
      simp only [keyMemB, Bool.or_eq_false_iff] at h2
      refine ⟨?_, keysDisjoint_insert tl acc k v h1.2 h2.2⟩
      rw [keyMemB_insertField, h1.1]
      have hne : ¬ k1 = k := by simpa using h2.1
      simp only [Bool.false_or, beq_eq_false_iff_ne, ne_eq]
      exact fun hc => hne hc.symm

theorem stringMk_data (s : String) : String.mk s.data = s := rfl

theorem skipWs_cons_not_ws (c : Char) (x : List Char) (h : isWsChar c = false) :
    skipWs (c :: x) = c :: x := by
  simp [skipWs, h]

theorem parseValue_wsLead (t s : List Char) (fuel : Nat)
    (h : ∀ c ∈ t, isWsChar c = true) :
    parseValue fuel (t ++ s) = parseValue fuel s := by
  cases fuel with
  | zero => rfl
  | succ fuel => simp only [parseValue, skipWs_ws_append t s h]

/-- The head character of a printed number: a minus sign or a digit. -/
theorem numToChars_head (m e : Int) :
    ∃ hc tl, numToChars m e = hc :: tl ∧ (hc = '-' ∨ isDigitChar hc = true) := by
  by_cases hm : m = 0
  · subst hm
    exact ⟨'0', [], rfl, Or.inr rfl⟩
  · obtain ⟨x, tl, hx10, hbody⟩ :=
      numBodyChars_head (natDigitsBE m.natAbs).headI
        (natDigitsBE m.natAbs).tail e
        (by
          obtain ⟨dd, dds, hdd⟩ := List.exists_cons_of_ne_nil
            (natDigitsBE_ne_nil m.natAbs (by omega))
          rw [hdd]
          exact natDigitsBE_lt m.natAbs dd (hdd ▸ List.mem_cons_self _ _))
    obtain ⟨dd, dds, hdd⟩ := List.exists_cons_of_ne_nil
      (natDigitsBE_ne_nil m.natAbs (by omega))
    have hcons : (natDigitsBE m.natAbs).headI :: (natDigitsBE m.natAbs).tail
        = natDigitsBE m.natAbs := by
      rw [hdd]
      rfl
    rw [hcons] at hbody
    by_cases hneg : m < 0
    · refine ⟨'-', numBodyChars (natDigitsBE m.natAbs) e, ?_, Or.inl rfl⟩
      rw [numToChars, if_neg hm, if_pos hneg]
      rfl
    · refine ⟨digitChar x, tl ++ [], ?_, Or.inr (digitChar_facts x hx10).2.1⟩
      rw [numToChars, if_neg hm, if_neg hneg, hbody]
      simp

/-- A digit head passes every keyword test of the value dispatcher. -/
theorem digitChar_not_kw (c : Char) (h : isDigitChar c = true) :
    ¬ c = 'n' ∧ ¬ c = 't' ∧ ¬ c = 'f' ∧ ¬ c = '\"' ∧ ¬ c = '[' ∧
      ¬ c = '\x7b' ∧ isWsChar c = false ∧ ¬ c = ']' ∧ ¬ c = '\x7d' := by
  refine ⟨?_, ?_, ?_, ?_, ?_, ?_, ?_, ?_, ?_⟩ <;>
    first
      | (intro hc; subst hc; exact absurd h (by decide))
      | (simp only [isDigitChar, Bool.and_eq_true, decide_eq_true_eq] at h
         simp only [isWsChar]
         have h1 : ¬ c = ' ' := fun hc => by subst hc; revert h; decide
         have h2 : ¬ c = '\t' := fun hc => by subst hc; revert h; decide
         have h3 : ¬ c = '\n' := fun hc => by subst hc; revert h; decide
         have h4 : ¬ c = '\r' := fun hc => by subst hc; revert h; decide
         simp [h1, h2, h3, h4])

theorem parseArrayRest_wsLead (t s : List Char) (fuel : Nat)
    (h : ∀ c ∈ t, isWsChar c = true) :
    parseArrayRest fuel (t ++ s) = parseArrayRest fuel s := by
  cases fuel with
  | zero => rfl
  | succ fuel => simp only [parseArrayRest, skipWs_ws_append t s h]

theorem parseObjRest_wsLead (t s : List Char) (fuel : Nat) (acc : JsonFields)
    (h : ∀ c ∈ t, isWsChar c = true) :
    parseObjRest fuel acc (t ++ s) = parseObjRest fuel acc s := by
  cases fuel with
  | zero => rfl
  | succ fuel => simp only [parseObjRest, skipWs_ws_append t s h]

theorem parseMember_wsLead (t s : List Char) (fuel : Nat)
    (h : ∀ c ∈ t, isWsChar c = true) :
    parseMember fuel (t ++ s) = parseMember fuel s := by
  cases fuel with
  | zero => rfl
  | succ fuel => simp only [parseMember, skipWs_ws_append t s h]

/-- All-whitespace lists for the prefix lemmas: a newline then an indent. -/
theorem nl_indent_ws (d : Nat) : ∀ c ∈ '\n' :: indentChars d, isWsChar c = true := by
  intro c hc
  rcases List.mem_cons.mp hc with h | h
  · subst h
    rfl
  · rw [indentChars] at h
    rw [List.eq_of_mem_replicate h]
    rfl

theorem parseValue_step_str (f : Nat) (cs o1 o2 : List Char)
    (h : parseStringBody cs = some (o1, o2)) :
    parseValue (f + 1) ('\"' :: cs) = some (.str (String.mk o1), o2) := by
  rw [parseValue, skipWs_cons_not_ws _ _ (by decide)]
  simp only [h]
  simp

theorem parseValue_step_num (f : Nat) (c : Char) (cs : List Char) (m e : Int)
    (rest : List Char) (hws : isWsChar c = false)
    (hn : ¬ c = 'n') (ht : ¬ c = 't') (hf : ¬ c = 'f') (hq : ¬ c = '\"')
    (hb : ¬ c = '[') (ho : ¬ c = '\x7b')
    (h : parseNumberCore (c :: cs) = some ((m, e), rest)) :
    parseValue (f + 1) (c :: cs) = some (.num m e, rest) := by
  rw [parseValue, skipWs_cons_not_ws _ _ hws]
  simp only [if_neg hn, if_neg ht, if_neg hf, if_neg hq, if_neg hb, if_neg ho, h]

theorem parseValue_step_arr (f : Nat) (cs : List Char) (c2 : Char)
    (cs2 : List Char) (hskip : skipWs cs = c2 :: cs2) (hne : ¬ c2 = ']')
    (x : Json) (r1 : List Char) (hx : parseValue f (c2 :: cs2) = some (x, r1))
    (xs : JsonList) (r2 : List Char)
    (hxs : parseArrayRest f r1 = some (xs, r2)) :
    parseValue (f + 1) ('[' :: cs) = some (.arr (.cons x xs), r2) := by
  rw [parseValue, skipWs_cons_not_ws _ _ (by decide)]
  simp only [hskip, if_neg hne, hx, hxs]
  simp

theorem parseValue_step_obj (f : Nat) (cs : List Char) (c2 : Char)
    (cs2 : List Char) (hskip : skipWs cs = c2 :: cs2) (hne : ¬ c2 = '\x7d')
    (k : String) (v : Json) (r1 : List Char)
    (hm : parseMember f (c2 :: cs2) = some ((k, v), r1))
    (fs : JsonFields) (r2 : List Char)
    (ho : parseObjRest f (.cons k v .nil) r1 = some (fs, r2)) :
    parseValue (f + 1) ('\x7b' :: cs) = some (.obj fs, r2) := by
  rw [parseValue, skipWs_cons_not_ws _ _ (by decide)]
  simp only [hskip, if_neg hne, hm]
  simp only [show insertField .nil k v = .cons k v .nil from rfl, ho]
  simp

theorem parseArrayRest_step_cons (f : Nat) (cs : List Char) (x : Json)
    (r1 : List Char) (hx : parseValue f cs = some (x, r1))
    (xs : JsonList) (r2 : List Char)
    (hxs : parseArrayRest f r1 = some (xs, r2)) :
    parseArrayRest (f + 1) (',' :: cs) = some (.cons x xs, r2) := by
  rw [parseArrayRest, skipWs_cons_not_ws _ _ (by decide)]
  simp only [hx, hxs]
  simp

theorem parseMember_step (f : Nat) (cs k1 r1 : List Char)
    (hkey : parseStringBody cs = some (k1, ':' :: r1)) (v : Json)
    (rv : List Char) (hv : parseValue f r1 = some (v, rv)) :
    parseMember (f + 1) ('\"' :: cs) = some ((String.mk k1, v), rv) := by
  rw [parseMember, skipWs_cons_not_ws _ _ (by decide)]
  simp only [hkey, skipWs_cons_not_ws ':' r1 (by decide), hv]
  simp

theorem parseObjRest_step_cons (f : Nat) (acc : JsonFields) (cs : List Char)
    (k : String) (v : Json) (r1 : List Char)
    (hm : parseMember f cs = some ((k, v), r1))
    (fs : JsonFields) (r2 : List Char)
    (ho : parseObjRest f (insertField acc k v) r1 = some (fs, r2)) :
    parseObjRest (f + 1) acc (',' :: cs) = some (fs, r2) := by
  rw [parseObjRest, skipWs_cons_not_ws _ _ (by decide)]
  simp only [hm, ho]
  simp

/-- The first character of a printed value is never whitespace nor a
closing bracket. -/
theorem pp_head_facts (v : Json) (d : Nat) :
    ∃ hc tl, ppJson d v = hc :: tl ∧ isWsChar hc = false ∧ ¬ hc = ']' ∧
      ¬ hc = '\x7d' := by
  cases v with
  | null => exact ⟨'n', _, rfl, rfl, by decide, by decide⟩
  | bool b =>
      cases b with
      | true => exact ⟨'t', _, rfl, rfl, by decide, by decide⟩
      | false => exact ⟨'f', _, rfl, rfl, by decide, by decide⟩
  | num m e =>
      obtain ⟨hc, tl, hpp, hfacts⟩ := numToChars_head m e
      refine ⟨hc, tl,
        by rw [show ppJson d (.num m e) = numToChars m e from rfl, hpp],
        ?_, ?_, ?_⟩
      · rcases hfacts with h | h
        · subst h
          decide
        · exact (digitChar_not_kw hc h).2.2.2.2.2.2.1
      · rcases hfacts with h | h
        · subst h
          decide
        · exact (digitChar_not_kw hc h).2.2.2.2.2.2.2.1
      · rcases hfacts with h | h
        · subst h
          decide
        · exact (digitChar_not_kw hc h).2.2.2.2.2.2.2.2
  | str s => exact ⟨'\"', _, rfl, rfl, by decide, by decide⟩
  | arr xs =>
      cases xs with
      | nil => exact ⟨'[', _, rfl, rfl, by decide, by decide⟩
      | cons x xs => exact ⟨'[', _, rfl, rfl, by decide, by decide⟩
  | obj fs =>
      cases fs with
      | nil => exact ⟨'\x7b', _, rfl, rfl, by decide, by decide⟩
      | cons k v fs => exact ⟨'\x7b', _, rfl, rfl, by decide, by decide⟩

/-- After an array element the input continues with a comma or a newline,
both of which end a number literal. -/
theorem numStop_arrayRest (d : Nat) (xs : JsonList) (T : List Char) :
    numStopB (ppArrayRest d xs ++ '\n' :: T) = true := by
  cases xs with
  | nil => rfl
  | cons x xs => rfl

/-- Likewise after an object member. -/
theorem numStop_objRest (d : Nat) (fs : JsonFields) (T : List Char) :
    numStopB (ppObjRestChars d fs ++ '\n' :: T) = true := by
  cases fs with
  | nil => rfl
  | cons k v fs => rfl

/-- A key absent from a member list is disjoint from it as a singleton
accumulator. -/
theorem keysDisjoint_single : ∀ (fs : JsonFields) (k : String) (v : Json),
    keyMemB k fs = false → keysDisjointB fs (.cons k v .nil) = true
  | .nil, _, _, _ => rfl
  | .cons k1 v1 tl, k, v, h => by
      simp only [keyMemB, Bool.or_eq_false_iff] at h
      simp only [keysDisjointB, keyMemB, Bool.or_false, Bool.and_eq_true,
        Bool.not_eq_true']
      have hne : ¬ k1 = k := by simpa using h.1
      exact ⟨by simp only [beq_eq_false_iff_ne, ne_eq]
                exact fun hc => hne hc.symm,
        keysDisjoint_single tl k v h.2⟩

/-! ### Every parsed number is normalised -/
theorem finishNumber_wf (neg : Bool) (intDs fracDs : List Nat) (expVal : Int)
    (rest : List Char) (m e : Int) (r : List Char)
    (h : finishNumber neg intDs fracDs expVal rest = some ((m, e), r)) :
    numWFb m e = true := by
  unfold finishNumber at h
  injection h with h'
  have h1 : normNum (if neg then -(valOfDigits (intDs ++ fracDs) : Int)
        else (valOfDigits (intDs ++ fracDs) : Int))
        (expVal - (fracDs.length : Int)) = (m, e) :=
    congrArg Prod.fst h'
  have h2 := normNum_wf (if neg then -(valOfDigits (intDs ++ fracDs) : Int)
    else (valOfDigits (intDs ++ fracDs) : Int)) (expVal - (fracDs.length : Int))
  rw [h1] at h2
  exact h2

theorem parseExpDigits_wf (neg : Bool) (intDs fracDs : List Nat)
    (esign : Bool) (s : List Char) (m e : Int) (r : List Char)
    (h : parseExpDigits neg intDs fracDs esign s = some ((m, e), r)) :
    numWFb m e = true := by
  rw [parseExpDigits] at h
  split at h
  · exact absurd h (by simp)
  · exact finishNumber_wf _ _ _ _ _ _ _ _ h

theorem parseExpSign_wf (neg : Bool) (intDs fracDs : List Nat)
    (s : List Char) (m e : Int) (r : List Char)
    (h : parseExpSign neg intDs fracDs s = some ((m, e), r)) :
    numWFb m e = true := by
  cases s with
  | nil => exact absurd h (by simp [parseExpSign])
  | cons c cs =>
      rw [parseExpSign] at h
      split at h
      · exact parseExpDigits_wf _ _ _ _ _ _ _ _ h
      · split at h
        · exact parseExpDigits_wf _ _ _ _ _ _ _ _ h
        · exact parseExpDigits_wf _ _ _ _ _ _ _ _ h

theorem parseExpPart_wf (neg : Bool) (intDs fracDs : List Nat)
    (s : List Char) (m e : Int) (r : List Char)
    (h : parseExpPart neg intDs fracDs s = some ((m, e), r)) :
    numWFb m e = true := by
  cases s with
  | nil =>
      rw [parseExpPart] at h
      exact finishNumber_wf _ _ _ _ _ _ _ _ h
  | cons c cs =>
      rw [parseExpPart] at h
      split at h
      · exact parseExpSign_wf _ _ _ _ _ _ _ h
      · exact finishNumber_wf _ _ _ _ _ _ _ _ h

theorem parseFracPart_wf (neg : Bool) (intDs : List Nat)
    (s : List Char) (m e : Int) (r : List Char)
    (h : parseFracPart neg intDs s = some ((m, e), r)) :
    numWFb m e = true := by
  cases s with
  | nil =>
      rw [parseFracPart] at h
      exact parseExpPart_wf _ _ _ _ _ _ _ h
  | cons c cs =>
      rw [parseFracPart] at h
      split at h
      · have h2 : (if (takeDigits cs).1 = [] then none
            else parseExpPart neg intDs (takeDigits cs).1 (takeDigits cs).2)
            = some ((m, e), r) := h
        split at h2
        · exact absurd h2 (by simp)
        · exact parseExpPart_wf _ _ _ _ _ _ _ h2
      · exact parseExpPart_wf _ _ _ _ _ _ _ h

theorem parseIntPart_wf (neg : Bool) (s : List Char) (m e : Int)
    (r : List Char) (h : parseIntPart neg s = some ((m, e), r)) :
    numWFb m e = true := by
  cases s with
  | nil => exact absurd h (by simp [parseIntPart])
  | cons c cs =>
      rw [parseIntPart] at h
      split at h
      · exact parseFracPart_wf _ _ _ _ _ _ h
      · split at h
        · exact parseFracPart_wf _ _ _ _ _ _ h
        · exact absurd h (by simp)

theorem parseNumberCore_wf (s : List Char) (m e : Int) (r : List Char)
    (h : parseNumberCore s = some ((m, e), r)) : numWFb m e = true := by
  cases s with
  | nil => exact absurd h (by simp [parseNumberCore])
  | cons c cs =>
      rw [parseNumberCore] at h
      split at h
      · exact parseIntPart_wf _ _ _ _ _ h
      · exact parseIntPart_wf _ _ _ _ _ h

/-! ### `insertField` preserves the object invariants -/
theorem jwfF_insertField : ∀ (acc : JsonFields) (k : String) (v : Json),
    jwfF acc = true → jwf v = true → jwfF (insertField acc k v) = true
  | .nil, k, v, _, hv => by simp [insertField, jwfF, hv]
  | .cons k0 v0 tl, k, v, hacc, hv => by
      simp only [jwfF, Bool.and_eq_true] at hacc
      by_cases h : k0 = k
      · subst h
        simp [insertField, jwfF, hv, hacc.2]
      · rw [insertField, if_neg h]
        simp [jwfF, hacc.1, jwfF_insertField tl k v hacc.2 hv]

theorem keysNodupB_insertField : ∀ (acc : JsonFields) (k : String) (v : Json),
    keysNodupB acc = true → keysNodupB (insertField acc k v) = true
  | .nil, k, v, _ => by simp [insertField, keysNodupB, keyMemB]
  | .cons k0 v0 tl, k, v, hacc => by
      simp only [keysNodupB, Bool.and_eq_true, Bool.not_eq_true'] at hacc
      by_cases h : k0 = k
      · subst h
        simp [insertField, keysNodupB, hacc.1, hacc.2]
      · rw [insertField, if_neg h]
        simp only [keysNodupB, Bool.and_eq_true, Bool.not_eq_true']
        refine ⟨?_, keysNodupB_insertField tl k v hacc.2⟩
        rw [keyMemB_insertField, hacc.1]
        simpa using fun hc => h hc.symm

/-- Every value the fuelled parser produces satisfies the parse invariant:
normalised numbers and duplicate-free object keys (accumulated through
`insertField`). -/
theorem parse_wf : ∀ (fuel : Nat),
    (∀ s v r, parseValue fuel s = some (v, r) → jwf v = true) ∧
    (∀ s xs r, parseArrayRest fuel s = some (xs, r) → jwfL xs = true) ∧
    (∀ s k v r, parseMember fuel s = some ((k, v), r) → jwf v = true) ∧
    (∀ acc s fs r, jwfF acc = true → keysNodupB acc = true →
      parseObjRest fuel acc s = some (fs, r) →
      jwfF fs = true ∧ keysNodupB fs = true)
  | 0 => by
      refine ⟨fun s v r h => ?_, fun s xs r h => ?_, fun s k v r h => ?_,
        fun acc s fs r h1 h2 h => ?_⟩ <;>
        simp [parseValue, parseArrayRest, parseMember, parseObjRest] at h
  | fuel + 1 => by
      obtain ⟨ihV, ihA, ihM, ihO⟩ := parse_wf fuel
      refine ⟨fun s v r h => ?_, fun s xs r h => ?_, fun s k v r h => ?_,
        fun acc s fs r haccw haccn h => ?_⟩
      · rw [parseValue] at h
        cases hskip : skipWs s with
        | nil => simp [hskip] at h
        | cons c cs =>
            simp only [hskip] at h
            by_cases h1 : c = 'n'
            · rw [if_pos h1] at h
              cases hexp : expectChars ['u', 'l', 'l'] cs with
              | some rest =>
                  simp only [hexp, Option.some.injEq, Prod.mk.injEq] at h
                  rw [← h.1]
                  rfl
              | none => simp [hexp] at h
            · rw [if_neg h1] at h
              by_cases h2 : c = 't'
              · rw [if_pos h2] at h
                cases hexp : expectChars ['r', 'u', 'e'] cs with
                | some rest =>
                    simp only [hexp, Option.some.injEq, Prod.mk.injEq] at h
                    rw [← h.1]
                    rfl
                | none => simp [hexp] at h
              · rw [if_neg h2] at h
                by_cases h3 : c = 'f'
                · rw [if_pos h3] at h
                  cases hexp : expectChars ['a', 'l', 's', 'e'] cs with
                  | some rest =>
                      simp only [hexp, Option.some.injEq, Prod.mk.injEq] at h
                      rw [← h.1]
                      rfl
                  | none => simp [hexp] at h
                · rw [if_neg h3] at h
                  by_cases h4 : c = '\"'
                  · rw [if_pos h4] at h
                    cases hsb : parseStringBody cs with
                    | some p =>
                        simp only [hsb, Option.some.injEq, Prod.mk.injEq] at h
                        rw [← h.1]
                        rfl
                    | none => simp [hsb] at h
                  · rw [if_neg h4] at h
                    by_cases h5 : c = '['
                    · rw [if_pos h5] at h
                      cases hskip2 : skipWs cs with
                      | nil => simp [hskip2] at h
                      | cons c2 cs2 =>
                          simp only [hskip2] at h
                          by_cases h6 : c2 = ']'
                          · rw [if_pos h6] at h
                            simp only [Option.some.injEq, Prod.mk.injEq] at h
                            rw [← h.1]
                            rfl
                          · rw [if_neg h6] at h
                            cases hp : parseValue fuel (c2 :: cs2) with
                            | none => simp [hp] at h
                            | some p =>
                                simp only [hp] at h
                                cases hq : parseArrayRest fuel p.2 with
                                | none => simp [hq] at h
                                | some q =>
                                    simp only [hq, Option.some.injEq,
                                      Prod.mk.injEq] at h
                                    rw [← h.1]
                                    have hwx := ihV _ p.1 p.2 (by rw [hp])
                                    have hwxs := ihA _ q.1 q.2 (by rw [hq])
                                    simp [jwf, jwfL, hwx, hwxs]
                    · rw [if_neg h5] at h
                      by_cases h6 : c = '\x7b'
                      · rw [if_pos h6] at h
                        cases hskip2 : skipWs cs with
                        | nil => simp [hskip2] at h
                        | cons c2 cs2 =>
                            simp only [hskip2] at h
                            by_cases h7 : c2 = '\x7d'
                            · rw [if_pos h7] at h
                              simp only [Option.some.injEq, Prod.mk.injEq] at h
                              rw [← h.1]
                              rfl
                            · rw [if_neg h7] at h
                              cases hp : parseMember fuel (c2 :: cs2) with
                              | none => simp [hp] at h
                              | some p =>
                                  simp only [hp] at h
                                  cases hq : parseObjRest fuel
                                      (insertField .nil p.1.1 p.1.2) p.2 with
                                  | none => simp [hq] at h
                                  | some q =>
                                      simp only [hq, Option.some.injEq,
                                        Prod.mk.injEq] at h
                                      have hv2 : jwf p.1.2 = true :=
                                        ihM _ p.1.1 p.1.2 p.2 (by rw [hp])
                                      have hwq := ihO
                                        (insertField .nil p.1.1 p.1.2) p.2
                                        q.1 q.2
                                        (by simp [insertField, jwfF, hv2])
                                        (by simp [insertField, keysNodupB,
                                          keyMemB])
                                        (by rw [hq])
                                      rw [← h.1]
                                      simp [jwf, hwq.1, hwq.2]
                      · rw [if_neg h6] at h
                        cases hp : parseNumberCore (c :: cs) with
                        | none => simp [hp] at h
                        | some p =>
                            simp only [hp, Option.some.injEq,
                              Prod.mk.injEq] at h
                            rw [← h.1]
                            have := parseNumberCore_wf (c :: cs) p.1.1 p.1.2
                              p.2 (by rw [hp])
                            simpa [jwf] using this
      · rw [parseArrayRest] at h
        cases hskip : skipWs s with
        | nil => simp [hskip] at h
        | cons c cs =>
            simp only [hskip] at h
            by_cases h1 : c = ','
            · rw [if_pos h1] at h
              cases hp : parseValue fuel cs with
              | none => simp [hp] at h
              | some p =>
                  simp only [hp] at h
                  cases hq : parseArrayRest fuel p.2 with
                  | none => simp [hq] at h
                  | some q =>
                      simp only [hq, Option.some.injEq, Prod.mk.injEq] at h
                      rw [← h.1]
                      have hwx := ihV _ p.1 p.2 (by rw [hp])
                      have hwxs := ihA _ q.1 q.2 (by rw [hq])
                      simp [jwfL, hwx, hwxs]
            · rw [if_neg h1] at h
              by_cases h2 : c = ']'
              · rw [if_pos h2] at h
                simp only [Option.some.injEq, Prod.mk.injEq] at h
                rw [← h.1]
                rfl
              · rw [if_neg h2] at h
                simp at h
      · rw [parseMember] at h
        cases hskip : skipWs s with
        | nil => simp [hskip] at h
        | cons c cs =>
            simp only [hskip] at h
            by_cases h1 : c = '\"'
            · rw [if_pos h1] at h
              cases hsb : parseStringBody cs with
              | none => simp [hsb] at h
              | some p =>
                  simp only [hsb] at h
                  cases hskip2 : skipWs p.2 with
                  | nil => simp [hskip2] at h
                  | cons c2 cs2 =>
                      simp only [hskip2] at h
                      by_cases h2 : c2 = ':'
                      · rw [if_pos h2] at h
                        cases hq : parseValue fuel cs2 with
                        | none => simp [hq] at h
                        | some q =>
                            simp only [hq, Option.some.injEq,
                              Prod.mk.injEq] at h
                            rw [← h.1.2]
                            exact ihV _ q.1 q.2 (by rw [hq])
                      · rw [if_neg h2] at h
                        simp at h
            · rw [if_neg h1] at h
              simp at h
      · rw [parseObjRest] at h
        cases hskip : skipWs s with
        | nil => simp [hskip] at h
        | cons c cs =>
            simp only [hskip] at h
            by_cases h1 : c = ','
            · rw [if_pos h1] at h
              cases hp : parseMember fuel cs with
              | none => simp [hp] at h
              | some p =>
                  simp only [hp] at h
                  have hv2 : jwf p.1.2 = true :=
                    ihM _ p.1.1 p.1.2 p.2 (by rw [hp])
                  exact ihO (insertField acc p.1.1 p.1.2) p.2 fs r
                    (jwfF_insertField acc p.1.1 p.1.2 haccw hv2)
                    (keysNodupB_insertField acc p.1.1 p.1.2 haccn) h
            · rw [if_neg h1] at h
              by_cases h2 : c = '\x7d'
              · rw [if_pos h2] at h
                simp only [Option.some.injEq, Prod.mk.injEq] at h
                rw [← h.1]
                exact ⟨haccw, haccn⟩
              · rw [if_neg h2] at h
                simp at h

mutual
/-- Re-parsing a pretty-printed well-formed value recovers it exactly. -/
theorem parseValue_pp : ∀ (v : Json) (d : Nat) (rest : List Char) (fuel : Nat),
    jwf v = true → jsize v ≤ fuel → numStopB rest = true →
    parseValue fuel (ppJson d v ++ rest) = some (v, rest)
  | .null, d, rest, fuel, hwf, hfuel, hstop => by
      cases fuel with
      | zero => exact absurd hfuel (by decide)
      | succ f => rfl
  | .bool true, d, rest, fuel, hwf, hfuel, hstop => by
      cases fuel with
      | zero => exact absurd hfuel (by decide)
      | succ f => rfl
  | .bool false, d, rest, fuel, hwf, hfuel, hstop => by
      cases fuel with
      | zero => exact absurd hfuel (by decide)
      | succ f => rfl
  | .num m e, d, rest, fuel, hwf, hfuel, hstop => by
      cases fuel with
      | zero => simp only [jsize] at hfuel; omega
      | succ f =>
          simp only [jwf] at hwf
          obtain ⟨hc, tl, hpp, hk⟩ := numToChars_head m e
          have hnum := parseNumberCore_roundtrip m e rest hwf hstop
          have hin : ppJson d (.num m e) ++ rest = hc :: (tl ++ rest) := by
            rw [show ppJson d (.num m e) = numToChars m e from rfl, hpp,
              List.cons_append]
          rw [hin]
          rw [hpp, List.cons_append] at hnum
          rcases hk with h | h
          · subst h
            exact parseValue_step_num f '-' (tl ++ rest) m e rest rfl
              (by decide) (by decide) (by decide) (by decide) (by decide)
              (by decide) hnum
          · obtain ⟨k1, k2, k3, k4, k5, k6, k7, k8, k9⟩ := digitChar_not_kw hc h
            exact parseValue_step_num f hc (tl ++ rest) m e rest k7 k1 k2 k3
              k4 k5 k6 hnum
  | .str s, d, rest, fuel, hwf, hfuel, hstop => by
      cases fuel with
      | zero => simp only [jsize] at hfuel; omega
      | succ f =>
          have hin : ppJson d (.str s) ++ rest
              = '\"' :: (escapeChars s.data ++ '\"' :: rest) := by
            simp [ppJson, quoteString]
          rw [hin]
          exact parseValue_step_str f _ s.data rest
            (parseStringBody_roundtrip s.data rest)
  | .arr .nil, d, rest, fuel, hwf, hfuel, hstop => by
      cases fuel with
      | zero => exact absurd hfuel (by decide)
      | succ f => rfl
  | .arr (.cons x xs), d, rest, fuel, hwf, hfuel, hstop => by
      cases fuel with
      | zero => exact absurd hfuel (by simp only [jsize, jsizeL]; omega)
      | succ f =>
          simp only [jwf, jwfL, Bool.and_eq_true] at hwf
          simp only [jsize, jsizeL] at hfuel
          obtain ⟨hc, tl0, hpp, hws, hnrb, hnob⟩ := pp_head_facts x (d + 1)
          have hin : ppJson d (.arr (.cons x xs)) ++ rest
              = '[' :: ('\n' :: (indentChars (d + 1) ++ (ppJson (d + 1) x ++
                  (ppArrayRest (d + 1) xs ++
                    '\n' :: (indentChars d ++ ']' :: rest))))) := by
            simp [ppJson, List.append_assoc, List.cons_append,
              List.singleton_append]
          rw [hin]
          refine parseValue_step_arr f _ hc
            (tl0 ++ (ppArrayRest (d + 1) xs ++
              '\n' :: (indentChars d ++ ']' :: rest))) ?_ hnrb x
            (ppArrayRest (d + 1) xs ++ '\n' :: (indentChars d ++ ']' :: rest))
            ?_ xs rest ?_
          · rw [skipWs_newline_indent, hpp, List.cons_append,
              skipWs_cons_not_ws _ _ hws]
          · rw [← List.cons_append, ← hpp]
            exact parseValue_pp x (d + 1)
              (ppArrayRest (d + 1) xs ++ '\n' :: (indentChars d ++ ']' :: rest))
              f hwf.1 (by omega) (numStop_arrayRest _ _ _)
          · exact parseArrayRest_pp xs (d + 1) d rest f hwf.2 (by omega) hstop
  | .obj .nil, d, rest, fuel, hwf, hfuel, hstop => by
      cases fuel with
      | zero => exact absurd hfuel (by decide)
      | succ f => rfl
  | .obj (.cons k v fs), d, rest, fuel, hwf, hfuel, hstop => by
      cases fuel with
      | zero => exact absurd hfuel (by simp only [jsize, jsizeF]; omega)
      | succ f =>
          simp only [jwf, jwfF, keysNodupB, Bool.and_eq_true,
            Bool.not_eq_true'] at hwf
          simp only [jsize, jsizeF] at hfuel
          have hin : ppJson d (.obj (.cons k v fs)) ++ rest
              = '\x7b' :: ('\n' :: (indentChars (d + 1) ++
                  ('\"' :: (escapeChars k.data ++
                    '\"' :: (':' :: (' ' :: (ppJson (d + 1) v ++
                      (ppObjRestChars (d + 1) fs ++
                        '\n' :: (indentChars d ++ '\x7d' :: rest))))))))) := by
            simp [ppJson, quoteString, List.append_assoc, List.cons_append,
              List.singleton_append]
          rw [hin]
          have hm := parseMember_pp v k (d + 1)
            (ppObjRestChars (d + 1) fs ++
              '\n' :: (indentChars d ++ '\x7d' :: rest)) f
            hwf.1.1 (by omega) (numStop_objRest _ _ _)
          have hmshape : quoteString k ++ ':' :: ' ' :: ppJson (d + 1) v ++
                (ppObjRestChars (d + 1) fs ++
                  '\n' :: (indentChars d ++ '\x7d' :: rest))
              = '\"' :: (escapeChars k.data ++
                  '\"' :: (':' :: (' ' :: (ppJson (d + 1) v ++
                    (ppObjRestChars (d + 1) fs ++
                      '\n' :: (indentChars d ++ '\x7d' :: rest)))))) := by
            simp [quoteString, List.append_assoc, List.cons_append,
              List.singleton_append]
          rw [hmshape] at hm
          have ho := parseObjRest_pp fs (.cons k v .nil) (d + 1) d rest f
            hwf.1.2 hwf.2.2 (keysDisjoint_single fs k v hwf.2.1) (by omega)
            hstop
          rw [show appendF (JsonFields.cons k v JsonFields.nil) fs
              = JsonFields.cons k v fs from rfl] at ho
          refine parseValue_step_obj f _ '\"' _ ?_ (by decide) k v _ hm
            (.cons k v fs) rest ho
          rw [skipWs_newline_indent, skipWs_cons_not_ws _ _ (by decide)]
/-- Re-parsing the printed tail of an array recovers the remaining
elements. -/
theorem parseArrayRest_pp : ∀ (xs : JsonList) (d dc : Nat) (rest : List Char)
    (fuel : Nat), jwfL xs = true → jsizeL xs + 1 ≤ fuel →
    numStopB rest = true →
    parseArrayRest fuel
      (ppArrayRest d xs ++ '\n' :: (indentChars dc ++ ']' :: rest))
      = some (xs, rest)
  | .nil, d, dc, rest, fuel, hwf, hfuel, hstop => by
      cases fuel with
      | zero => exact absurd hfuel (by omega)
      | succ f =>
          have hin : ppArrayRest d .nil ++
                '\n' :: (indentChars dc ++ ']' :: rest)
              = ('\n' :: indentChars dc) ++ (']' :: rest) := by
            simp [ppArrayRest]
          rw [hin, parseArrayRest_wsLead _ _ _ (nl_indent_ws dc)]
          rfl
  | .cons x xs, d, dc, rest, fuel, hwf, hfuel, hstop => by
      cases fuel with
      | zero => exact absurd hfuel (by omega)
      | succ f =>
          simp only [jwfL, Bool.and_eq_true] at hwf
          simp only [jsizeL] at hfuel
          have hin : ppArrayRest d (.cons x xs) ++
                '\n' :: (indentChars dc ++ ']' :: rest)
              = ',' :: ('\n' :: (indentChars d ++ (ppJson d x ++
                  (ppArrayRest d xs ++
                    '\n' :: (indentChars dc ++ ']' :: rest))))) := by
            simp [ppArrayRest, List.append_assoc, List.cons_append]
          rw [hin]
          refine parseArrayRest_step_cons f _ x
            (ppArrayRest d xs ++ '\n' :: (indentChars dc ++ ']' :: rest))
            ?_ xs rest ?_
          · rw [show ('\n' :: (indentChars d ++ (ppJson d x ++
                  (ppArrayRest d xs ++
                    '\n' :: (indentChars dc ++ ']' :: rest)))))
                = ('\n' :: indentChars d) ++ (ppJson d x ++
                  (ppArrayRest d xs ++
                    '\n' :: (indentChars dc ++ ']' :: rest))) from by simp,
              parseValue_wsLead _ _ _ (nl_indent_ws d)]
            exact parseValue_pp x d
              (ppArrayRest d xs ++ '\n' :: (indentChars dc ++ ']' :: rest)) f
              hwf.1 (by omega) (numStop_arrayRest _ _ _)
          · exact parseArrayRest_pp xs d dc rest f hwf.2 (by omega) hstop
/-- Re-parsing a printed member recovers the key and the value. -/
theorem parseMember_pp : ∀ (v : Json) (k : String) (d : Nat)
    (rest : List Char) (fuel : Nat), jwf v = true → jsize v + 1 ≤ fuel →
    numStopB rest = true →
    parseMember fuel (quoteString k ++ ':' :: ' ' :: ppJson d v ++ rest)
      = some ((k, v), rest)
  | v, k, d, rest, fuel, hwf, hfuel, hstop => by
      cases fuel with
      | zero => exact absurd hfuel (by omega)
      | succ f =>
          have hin : quoteString k ++ ':' :: ' ' :: ppJson d v ++ rest
              = '\"' :: (escapeChars k.data ++
                  '\"' :: (':' :: (' ' :: (ppJson d v ++ rest)))) := by
            simp [quoteString, List.append_assoc, List.cons_append,
              List.singleton_append]
          rw [hin]
          have hv : parseValue f (' ' :: (ppJson d v ++ rest))
              = some (v, rest) := by
            rw [show (' ' :: (ppJson d v ++ rest))
                  = [' '] ++ (ppJson d v ++ rest) from rfl,
              parseValue_wsLead _ _ _ (by
                intro c hc
                rw [List.mem_singleton.mp hc]
                rfl)]
            exact parseValue_pp v d rest f hwf (by omega) hstop
          exact parseMember_step f _ k.data (' ' :: (ppJson d v ++ rest))
            (parseStringBody_roundtrip k.data
              (':' :: (' ' :: (ppJson d v ++ rest)))) v rest hv
/-- Re-parsing the printed tail of an object accumulates exactly the
remaining members. -/
theorem parseObjRest_pp : ∀ (fs : JsonFields) (acc : JsonFields) (d dc : Nat)
    (rest : List Char) (fuel : Nat), jwfF fs = true → keysNodupB fs = true →
    keysDisjointB fs acc = true → jsizeF fs + 1 ≤ fuel →
    numStopB rest = true →
    parseObjRest fuel acc
      (ppObjRestChars d fs ++ '\n' :: (indentChars dc ++ '\x7d' :: rest))
      = some (appendF acc fs, rest)
  | .nil, acc, d, dc, rest, fuel, hwf, hnodup, hdisj, hfuel, hstop => by
      cases fuel with
      | zero => exact absurd hfuel (by omega)
      | succ f =>
          have hin : ppObjRestChars d .nil ++
                '\n' :: (indentChars dc ++ '\x7d' :: rest)
              = ('\n' :: indentChars dc) ++ ('\x7d' :: rest) := by
            simp [ppObjRestChars]
          rw [hin, parseObjRest_wsLead _ _ _ _ (nl_indent_ws dc),
            appendF_nil]
          rfl
  | .cons k v fs, acc, d, dc, rest, fuel, hwf, hnodup, hdisj, hfuel,
      hstop => by
      cases fuel with
      | zero => exact absurd hfuel (by omega)
      | succ f =>
          simp only [jwfF, Bool.and_eq_true] at hwf
          simp only [keysNodupB, Bool.and_eq_true, Bool.not_eq_true'] at hnodup
          simp only [keysDisjointB, Bool.and_eq_true, Bool.not_eq_true']
            at hdisj
          simp only [jsizeF] at hfuel
          have hin : ppObjRestChars d (.cons k v fs) ++
                '\n' :: (indentChars dc ++ '\x7d' :: rest)
              = ',' :: ('\n' :: (indentChars d ++
                  (quoteString k ++ ':' :: ' ' :: (ppJson d v ++
                    (ppObjRestChars d fs ++
                      '\n' :: (indentChars dc ++ '\x7d' :: rest)))))) := by
            simp [ppObjRestChars, List.append_assoc, List.cons_append]
          rw [hin]
          refine parseObjRest_step_cons f acc _ k v
            (ppObjRestChars d fs ++ '\n' :: (indentChars dc ++ '\x7d' :: rest))
            ?_ (appendF acc (.cons k v fs)) rest ?_
          · rw [show ('\n' :: (indentChars d ++
                  (quoteString k ++ ':' :: ' ' :: (ppJson d v ++
                    (ppObjRestChars d fs ++
                      '\n' :: (indentChars dc ++ '\x7d' :: rest))))))
                = ('\n' :: indentChars d) ++
                  (quoteString k ++ ':' :: ' ' :: ppJson d v ++
                    (ppObjRestChars d fs ++
                      '\n' :: (indentChars dc ++ '\x7d' :: rest))) from by
                simp,
              parseMember_wsLead _ _ _ (nl_indent_ws d)]
            exact parseMember_pp v k d
              (ppObjRestChars d fs ++
                '\n' :: (indentChars dc ++ '\x7d' :: rest)) f hwf.1
              (by omega) (numStop_objRest _ _ _)
          · have ho := parseObjRest_pp fs (insertField acc k v) d dc rest f
              hwf.2 hnodup.2 (keysDisjoint_insert fs acc k v hdisj.2 hnodup.1)
              (by omega) hstop
            have hacc : appendF (insertField acc k v) fs
                = appendF acc (.cons k v fs) := by
              rw [insertField_append acc k v hdisj.1, appendF_assoc]
              rfl
            rw [hacc] at ho
            exact ho
end

mutual
/-- The printed form is long enough to serve as re-parsing fuel. -/
theorem jsize_le_pp : ∀ (v : Json) (d : Nat),
    jsize v ≤ (ppJson d v).length + 1
  | .null, d => by simp [jsize, ppJson]
  | .bool true, d => by simp [jsize, ppJson]
  | .bool false, d => by simp [jsize, ppJson]
  | .num m e, d => by
      simp only [jsize]
      omega
  | .str s, d => by
      simp only [jsize]
      omega
  | .arr .nil, d => by simp [jsize, jsizeL, ppJson]
  | .arr (.cons x xs), d => by
      have h1 := jsize_le_pp x (d + 1)
      have h2 := jsizeL_le_pp xs d
      simp only [jsize, jsizeL, ppJson, List.length_cons, List.length_append,
        List.length_singleton, indentChars, List.length_replicate]
      omega
  | .obj .nil, d => by simp [jsize, jsizeF, ppJson]
  | .obj (.cons k v fs), d => by
      have h1 := jsize_le_pp v (d + 1)
      have h2 := jsizeF_le_pp fs d
      simp only [jsize, jsizeF, ppJson, List.length_cons, List.length_append,
        List.length_singleton, indentChars, List.length_replicate]
      omega
/-- Likewise for the printed tail of an array. -/
theorem jsizeL_le_pp : ∀ (xs : JsonList) (d : Nat),
    jsizeL xs ≤ (ppArrayRest (d + 1) xs).length
  | .nil, d => by simp [jsizeL, ppArrayRest]
  | .cons x xs, d => by
      have h1 := jsize_le_pp x (d + 1)
      have h2 := jsizeL_le_pp xs d
      simp only [jsizeL, ppArrayRest, List.length_cons, List.length_append,
        indentChars, List.length_replicate]
      omega
/-- Likewise for the printed tail of an object. -/
theorem jsizeF_le_pp : ∀ (fs : JsonFields) (d : Nat),
    jsizeF fs ≤ (ppObjRestChars (d + 1) fs).length
  | .nil, d => by simp [jsizeF, ppObjRestChars]
  | .cons k v fs, d => by
      have h1 := jsize_le_pp v (d + 1)
      have h2 := jsizeF_le_pp fs d
      simp only [jsizeF, ppObjRestChars, List.length_cons, List.length_append,
        indentChars, List.length_replicate]
      omega
end

/-- `JSON.parse` recovers a well-formed value from its own
pretty-printing. -/
theorem parseJson_pp (v : Json) (h : jwf v = true) :
    parseJsonChars (ppJson 0 v) = some v := by
  have hp := parseValue_pp v 0 [] ((ppJson 0 v).length + 1) h
    (jsize_le_pp v 0) rfl
  rw [List.append_nil] at hp
  rw [parseJsonChars]
  simp [hp, skipWs]

/-- The top-level parser only returns well-formed values. -/
theorem parseJsonChars_wf (cs : List Char) (v : Json)
    (h : parseJsonChars cs = some v) : jwf v = true := by
  rw [parseJsonChars] at h
  cases hp : parseValue (cs.length + 1) cs with
  | none => simp [hp] at h
  | some p =>
      simp only [hp] at h
      cases hsk : skipWs p.2 with
      | nil =>
          simp only [hsk, Option.some.injEq] at h
          rw [← h]
          exact (parse_wf _).1 _ p.1 p.2 (by rw [hp])
      | cons c cs2 => simp [hsk] at h

/-- C6: `formatContent` (the spec's `canonicalize`) is idempotent: for every
string `text` and every MIME type `mt`,
`formatContent (formatContent text mt) mt = formatContent text mt`; in
particular for `"text/plain"`, where a valid-JSON input is replaced by its
`JSON.stringify(·, null, 2)` rendering, which re-parses to the same value
and re-prints to the same string. -/
theorem formatContent_idem (text mt : String) :
    formatContent (formatContent text mt) mt = formatContent text mt := by
  by_cases hc : (decide (mt = "text/plain") && isValidJson text) = true
  · have hval : isValidJson text = true := ((Bool.and_eq_true _ _).mp hc).2
    have hmt : mt = "text/plain" := by
      have := ((Bool.and_eq_true _ _).mp hc).1
      simpa using this
    obtain ⟨v, hv⟩ : ∃ v, parseJsonChars text.data = some v := by
      rw [isValidJson] at hval
      exact Option.isSome_iff_exists.mp hval
    have hwf := parseJsonChars_wf text.data v hv
    have h1 : formatContent text mt = String.mk (ppJson 0 v) := by
      rw [formatContent, if_pos hc]
      simp [formatJson, hv]
    have hpp : parseJsonChars (String.mk (ppJson 0 v)).data = some v :=
      parseJson_pp v hwf
    have hval2 : isValidJson (String.mk (ppJson 0 v)) = true := by
      rw [isValidJson, hpp]
      rfl
    have hfj2 : formatJson (String.mk (ppJson 0 v))
        = String.mk (ppJson 0 v) := by
      simp [formatJson, hpp]
    rw [h1, formatContent, if_pos (by rw [hmt]; simp [hval2])]
    exact hfj2
  · have h1 : formatContent text mt = text := by
      rw [formatContent, if_neg hc]
    rw [h1]
    exact h1

/-- C10: `isValidJson` (the spec's `isStructured`) holds exactly when the
string parses as any JSON value — bare scalars such as `"123"`, `"null"`,
`"true"` and `"1e2"` included, not only objects and arrays — and
`formatContent` with MIME type `"text/plain"` therefore re-serialises such
scalar inputs: `formatContent "1e2" "text/plain"` returns `"100"`, not the
input unchanged. -/
theorem isValidJson_scalars :
    (∀ s : String,
      isValidJson s = true ↔ ∃ v, parseJsonChars s.data = some v) ∧
    isValidJson "123" = true ∧ isValidJson "null" = true ∧
    isValidJson "true" = true ∧ isValidJson "1e2" = true ∧
    formatContent "1e2" "text/plain" = "100" := by
  refine ⟨fun s => ?_, by decide, by decide, by decide, by decide, by decide⟩
  rw [isValidJson]
  exact Option.isSome_iff_exists

end Clipboard
